import Mathlib

/-!
Verification development for the genplot-mp data-preparation and statistics
pipeline (source: src/genplot-mp.py).  The Python values flowing through the
pipeline (floats, strings, None, float nan) are embedded as the type PyVal;
Python exceptions are embedded as the error side of Except.  Floats are
modelled as exact rationals: every operation the claims exercise (comparison,
sorting, slicing, sums, division on small inputs) is order- and
value-preserving, so nothing the claims state depends on rounding.
Timestamp instants are likewise embedded as rationals, since only their
linear order is used by the code under study.
-/

namespace Genplot

/-- Embedded Python runtime value: float, str, None, or float nan
(numpy.nan, used by the source as the gap sentinel). -/
inductive PyVal
| none
| nan
| num (q : ℚ)
| str (s : String)
deriving DecidableEq, Repr

/-- Decidable equality for embedded computation results. -/
instance {α β : Type} [DecidableEq α] [DecidableEq β] : DecidableEq (Except α β)
| .error a, .error b =>
  if h : a = b then .isTrue (congrArg Except.error h)
  else .isFalse (fun hh => h (Except.error.inj hh))
| .error _, .ok _ => .isFalse (fun hh => Except.noConfusion hh)
| .ok _, .error _ => .isFalse (fun hh => Except.noConfusion hh)
| .ok a, .ok b =>
  if h : a = b then .isTrue (congrArg Except.ok h)
  else .isFalse (fun hh => h (Except.ok.inj hh))

/-- Embedded Python exception kind. -/
inductive PyErr
| typeError
| valueError
| zeroDivisionError
| indexError
| statisticsError
deriving DecidableEq, Repr

/-- Codepoint-lexicographic strict comparison on character lists: the order
Python uses for str < str. -/
def strLt : List Char → List Char → Bool
| [], [] => false
| [], _ :: _ => true
| _ :: _, [] => false
| a :: as, b :: bs =>
  if a.toNat < b.toNat then true
  else if b.toNat < a.toNat then false
  else strLt as bs

/-- Python str < str. -/
def pyStrLt (a b : String) : Bool := strLt a.toList b.toList

/-- Python str <= str (total order, so the complement of the reverse strict order). -/
def pyStrLe (a b : String) : Bool := !(pyStrLt b a)

/-- Python a < b on embedded values: numbers compare numerically, strings
lexicographically, any comparison involving nan is false, and a mixed
number/string comparison raises TypeError (as does None). -/
def pyLt : PyVal → PyVal → Except PyErr Bool
| .num a, .num b => .ok (decide (a < b))
| .str a, .str b => .ok (pyStrLt a b)
| .nan, .num _ => .ok false
| .num _, .nan => .ok false
| .nan, .nan => .ok false
| _, _ => .error PyErr.typeError

/-- Python a <= b on embedded values (same conventions as pyLt). -/
def pyLe : PyVal → PyVal → Except PyErr Bool
| .num a, .num b => .ok (decide (a ≤ b))
| .str a, .str b => .ok (pyStrLe a b)
| .nan, .num _ => .ok false
| .num _, .nan => .ok false
| .nan, .nan => .ok false
| _, _ => .error PyErr.typeError

/-- Python a >= b. -/
def pyGe (a b : PyVal) : Except PyErr Bool := pyLe b a

/-- Python a > b. -/
def pyGt (a b : PyVal) : Except PyErr Bool := pyLt b a

/-- Python truthiness of an embedded value: None and 0.0 and the empty
string are falsy; nan is truthy. -/
def pyTruthy : PyVal → Bool
| .none => false
| .nan => true
| .num q => decide (q ≠ 0)
| .str s => decide (s ≠ "")

/-- Numeric value of a digit list (most significant first). -/
def digitsVal (l : List Char) : ℕ := l.foldl (fun a c => 10 * a + (c.toNat - 48)) 0

/-- Model of Python float(s) on plain decimal literals: optional sign,
integer part, optional fractional part; anything else fails.  (Python's
float() also accepts exponents and special words; the source's bound
strings are plain decimals, and the claims only distinguish parse success
from parse failure.) -/
def parseFloat (s : String) : Option ℚ :=
  let core : List Char → Option ℚ := fun cs =>
    let ip := cs.takeWhile Char.isDigit
    let rest := cs.dropWhile Char.isDigit
    match rest with
    | [] => if ip.isEmpty then Option.none else some ((digitsVal ip : ℚ))
    | c :: fr =>
      if c == '.' && fr.all Char.isDigit && !(ip.isEmpty && fr.isEmpty) then
        some ((digitsVal ip : ℚ) + (digitsVal fr : ℚ) / (10 : ℚ) ^ fr.length)
      else Option.none
  match s.toList with
  | '-' :: r => (core r).map (fun q => -q)
  | '+' :: r => core r
  | body => core body

/-- Python float(v) as used on bound values: float of a float is itself,
float of a string parses it or raises ValueError, float of None raises
TypeError. -/
def pyFloat : PyVal → Except PyErr PyVal
| .num q => .ok (.num q)
| .nan => .ok .nan
| .str s =>
  match parseFloat s with
  | some q => .ok (.num q)
  | Option.none => .error PyErr.valueError
| .none => .error PyErr.typeError

/-- check_limits (src/genplot-mp.py lines 1381-1393) applied to one bound:
a non-None bound is converted with float(); on conversion failure the
literal value is kept unconverted (the try/except swallows the error). -/
def check_limit (l : PyVal) : PyVal :=
  match l with
  | .none => .none
  | .str s =>
    match parseFloat s with
    | some q => .num q
    | Option.none => .str s
  | v => v

/-- check_limits on a (min, max) pair, as the source calls it. -/
def check_limits (a b : PyVal) : PyVal × PyVal := (check_limit a, check_limit b)

/-- Lower-bound scan of prepare_data (lines 1492-1498 and 1456-1462): first
index whose value is >= the bound; the for-else arm yields 0 when no value
matches.  A TypeError in a comparison propagates. -/
def scan_lower (b : PyVal) : List PyVal → ℕ → Except PyErr ℕ
| [], _ => .ok 0
| v :: r, i => do
  let c ← pyGe v b
  if c then .ok i else scan_lower b r (i + 1)

/-- Upper-bound scan of the non-histogram branch (lines 1503-1512): first
index whose value is > the bound; the for-else arm yields the full length
(the starting offset plus the values walked). -/
def scan_upper (b : PyVal) : List PyVal → ℕ → Except PyErr ℕ
| [], i => .ok i
| v :: r, i => do
  let c ← pyGt v b
  if c then .ok i else scan_upper b r (i + 1)

/-- Upper-bound scan of the histogram branch (lines 1467-1473): the rows are
walked in reversed enumeration order and the first (hence largest) index
whose value is <= the bound is returned; the for-else arm yields the full
length.  Note the returned index itself is later excluded by the slice. -/
def scan_last_le (b : PyVal) (dflt : ℕ) : List (ℕ × PyVal) → Except PyErr ℕ
| [] => .ok dflt
| (i, v) :: r => do
  let c ← pyLe v b
  if c then .ok i else scan_last_le b dflt r

/-- Sort key order used to embed Python sorted(): a total Boolean order on
PyVal that agrees with Python's ordering on any homogeneous list (all
floats, all timestamps, or all strings).  The source only ever sorts
homogeneous lists; across kinds this order is an arbitrary ranking
(Python would raise TypeError there). -/
def pyKeyLe (a b : PyVal) : Bool :=
  match a, b with
  | .num x, .num y => decide (x ≤ y)
  | .str x, .str y => pyStrLe x y
  | .none, _ => true
  | _, .none => false
  | .nan, _ => true
  | _, .nan => false
  | .num _, .str _ => true
  | .str _, .num _ => false

/-- The sort key order as a decidable relation, for List.insertionSort. -/
def PvLe (a b : PyVal) : Prop := pyKeyLe a b = true

instance : DecidableRel PvLe := fun a b => by unfold PvLe; infer_instance

/-- Embedded Python sorted(): a stable ascending sort.  Stable sorts of a
list under one total preorder coincide, so the insertion sort used here
returns exactly what Python's (stable) sorted() returns. -/
def pySorted (l : List PyVal) : List PyVal := List.insertionSort PvLe l

/-- Order on pairs used for sorted(key = lambda p: p[0]) (lines 1483-1490). -/
def PvFstLe (a b : PyVal × PyVal) : Prop := pyKeyLe a.1 b.1 = true

instance : DecidableRel PvFstLe := fun a b => by unfold PvFstLe; infer_instance

/-- Embedded sorted(pairs, key = lambda p: p[0]). -/
def pySortedPairs (l : List (PyVal × PyVal)) : List (PyVal × PyVal) :=
  List.insertionSort PvFstLe l

/-- Python min(list): ValueError on an empty list, otherwise a left fold
keeping the current value unless a later one compares strictly below it
(so comparisons with nan never replace the current value). -/
def py_min_fold (m : PyVal) : List PyVal → Except PyErr PyVal
| [] => .ok m
| v :: r => do
  let b ← pyLt v m
  py_min_fold (if b then v else m) r

/-- Python min on embedded values. -/
def py_min : List PyVal → Except PyErr PyVal
| [] => .error PyErr.valueError
| v :: r => py_min_fold v r

/-- Python max fold: a later value replaces the current one only when it
compares strictly above it. -/
def py_max_fold (m : PyVal) : List PyVal → Except PyErr PyVal
| [] => .ok m
| v :: r => do
  let b ← pyGt v m
  py_max_fold (if b then v else m) r

/-- Python max on embedded values. -/
def py_max : List PyVal → Except PyErr PyVal
| [] => .error PyErr.valueError
| v :: r => py_max_fold v r

/-- One pass of the y-blanking comprehension (lines 1547 and 1551): each
value is kept when the comparison with the bound succeeds and holds, and is
replaced in place by the nan gap sentinel otherwise; a TypeError in any
comparison propagates. -/
def blank_scan (keep : PyVal → PyVal → Except PyErr Bool) (b : PyVal) :
    List PyVal → Except PyErr (List PyVal)
| [] => .ok []
| c :: r => do
  let k ← keep c b
  let rest ← blank_scan keep b r
  .ok ((if k then c else PyVal.nan) :: rest)

/-- Graph kinds of the source (GRAPH_TYPES). -/
inductive GType
| timeseries
| histogram
| bar
| line
| scatter
| stem
| pie
| buckets
deriving DecidableEq, Repr

/-- The per-dataset state that prepare_data's range restriction reads and
writes: the graph kind, the type-inference verdicts, the two axis series
(already extracted from the parsed rows), and the four bounds (already put
through check_limits, or through strptime for a timeseries). -/
structure Plot where
  graphType : GType
  isCatX : Bool
  isCatY : Bool
  x : List PyVal
  y : List PyVal
  minX : PyVal
  maxX : PyVal
  minY : PyVal
  maxY : PyVal
deriving DecidableEq, Repr

/-- The float() re-conversion of a truthy numeric-axis bound (lines
1540-1544 for y, lines 1533-1537 for x pass catY := isCatX there). -/
def convert_bound (skip : Bool) (b : PyVal) : Except PyErr PyVal :=
  if !skip && pyTruthy b then pyFloat b else pure b

/-- The falsy-min-y fallback value: min() of the y list, or its first
element for a categorical y (IndexError on an empty list). -/
def fallback_min (catY : Bool) (ys : List PyVal) : Except PyErr PyVal :=
  if catY then
    match ys with
    | [] => Except.error PyErr.indexError
    | v :: _ => pure v
  else py_min ys

/-- The falsy-max-y fallback value: max() of the y list, or its last
element for a categorical y (IndexError on an empty list). -/
def fallback_max (catY : Bool) (ys : List PyVal) : Except PyErr PyVal :=
  if catY then
    match ys.getLast? with
    | Option.none => Except.error PyErr.indexError
    | some v => pure v
  else py_max ys

/-- The min-y step of lines 1545-1549: a truthy bound blanks the
below-range values in place; a falsy one is replaced by the fallback. -/
def apply_min_y (catY : Bool) (ys : List PyVal) (minY : PyVal) :
    Except PyErr (List PyVal × PyVal) :=
  if pyTruthy minY then do
    let l ← blank_scan pyGe minY ys
    pure (l, minY)
  else do
    let m ← fallback_min catY ys
    pure (ys, m)

/-- The max-y step of lines 1550-1553 (runs on the min-blanked list): a
truthy bound blanks the above-range values; a falsy one is replaced by
max() of the current y list (its last element for a categorical y). -/
def apply_max_y (catY : Bool) (ys : List PyVal) (maxY : PyVal) :
    Except PyErr (List PyVal × PyVal) :=
  if pyTruthy maxY then do
    let l ← blank_scan pyLe maxY ys
    pure (l, maxY)
  else do
    let m ← fallback_max catY ys
    pure (ys, m)

/-- Y-axis ranging of prepare_data (lines 1539-1553): numeric-y bounds are
re-converted with float() when truthy; a truthy min-y (then max-y) blanks
out-of-range values to nan in place; a falsy bound is replaced by min()/max()
of the current y list (its first/last element for a categorical y). -/
def y_range (catY : Bool) (ys0 : List PyVal) (minY0 maxY0 : PyVal) :
    Except PyErr (List PyVal × PyVal × PyVal) := do
  let minY1 ← convert_bound catY minY0
  let maxY1 ← convert_bound catY maxY0
  let st1 ← apply_min_y catY ys0 minY1
  let st2 ← apply_max_y catY st1.1 maxY1
  pure (st2.1, st1.2, st2.2)

/-- The lower-bound step of lines 1492-1501 (and 1456-1465 for histograms):
a truthy min-x runs the forward scan for the first index with x >= min-x; a
falsy one is replaced by the first element of the (sorted) x list, with the
cut at 0 (IndexError on an empty list). -/
def bound_lower (minX : PyVal) (xs : List PyVal) : Except PyErr (ℕ × PyVal) :=
  if pyTruthy minX then do
    let l ← scan_lower minX xs 0
    pure (l, minX)
  else
    match xs with
    | [] => Except.error PyErr.indexError
    | v :: _ => pure (0, v)

/-- The upper-bound step of lines 1503-1515: a truthy max-x runs the
forward scan for the first index with x > max-x; a falsy one is replaced by
the last element with the cut at the full length. -/
def bound_upper (maxX : PyVal) (xs : List PyVal) : Except PyErr (ℕ × PyVal) :=
  if pyTruthy maxX then do
    let r ← scan_upper maxX xs 0
    pure (r, maxX)
  else
    match xs.getLast? with
    | Option.none => Except.error PyErr.indexError
    | some v => pure (xs.length, v)

/-- Range restriction of prepare_data for the non-histogram kinds (lines
1480-1553).  For a timeseries or a numeric x the (x, y) rows are first
stably sorted ascending by x; a categorical x is left in input order.  A
truthy min-x selects the first index with x >= min-x (0 when none matches),
a truthy max-x the first index with x > max-x (the length when none
matches); a falsy bound is replaced by the first/last element of the
(sorted) x list.  Both series are then cut to the [left, right) slice; for a
plain numeric x the truthy bounds are re-converted with float(); finally the
y bounds are applied by blanking. -/
def sorts_by_x (p : Plot) : Bool :=
  decide (p.graphType = GType.timeseries) || !p.isCatX

/-- The x list the bound scans walk (lines 1482-1491): the x components of
the x-sorted rows for a timeseries or numeric x, the raw x list for a
categorical x. -/
def clip_xs (p : Plot) : List PyVal :=
  if sorts_by_x p then (pySortedPairs (p.x.zip p.y)).map Prod.fst else p.x

/-- The final [left, right) selection (lines 1517-1531): both components of
the sorted rows for a timeseries or numeric x, the raw x and y lists sliced
with the same cuts for a categorical x. -/
def clip_sel (p : Plot) (l r : ℕ) : List PyVal × List PyVal :=
  if sorts_by_x p then
    ((((pySortedPairs (p.x.zip p.y)).drop l).take (r - l)).map Prod.fst,
     (((pySortedPairs (p.x.zip p.y)).drop l).take (r - l)).map Prod.snd)
  else
    ((p.x.drop l).take (r - l), (p.y.drop l).take (r - l))

def prepare_clip (p : Plot) : Except PyErr Plot := do
  let stL ← bound_lower p.minX (clip_xs p)
  let stR ← bound_upper p.maxX (clip_xs p)
  let minX2 ← convert_bound (p.isCatX || decide (p.graphType = GType.timeseries)) stL.2
  let maxX2 ← convert_bound (p.isCatX || decide (p.graphType = GType.timeseries)) stR.2
  let yst ← y_range p.isCatY (clip_sel p stL.1 stR.1).2 p.minY p.maxY
  pure (Plot.mk p.graphType p.isCatX p.isCatY (clip_sel p stL.1 stR.1).1 yst.1
    minX2 maxX2 yst.2.1 yst.2.2)

/-- The histogram upper-bound step (lines 1467-1476): a truthy max-x runs
the reversed scan for the largest index with x <= max-x; a falsy one is
replaced by the last sorted element with the cut at the full length. -/
def bound_upper_hist (maxX : PyVal) (xs : List PyVal) : Except PyErr (ℕ × PyVal) :=
  if pyTruthy maxX then do
    let r ← scan_last_le maxX xs.length xs.enum.reverse
    pure (r, maxX)
  else
    match xs.getLast? with
    | Option.none => Except.error PyErr.indexError
    | some v => pure (xs.length, v)

/-- Range restriction of prepare_data for the histogram kind (lines
1454-1479): the x series is sorted ascending; a truthy min-x selects the
first index with x >= min-x (0 when none matches); a truthy max-x runs the
reversed scan and selects the largest index with x <= max-x (the length
when none matches); a falsy bound is replaced by the first/last sorted
element; the series is cut to the [left, right) slice (which excludes the
index the reversed scan found). -/
def clip_histogram (x0 : List PyVal) (minX0 maxX0 : PyVal) :
    Except PyErr (List PyVal × PyVal × PyVal) := do
  let tmp := pySorted x0
  let stL ← bound_lower minX0 tmp
  let stR ← bound_upper_hist maxX0 tmp
  pure ((tmp.drop stL.1).take (stR.1 - stL.1), stL.2, stR.2)

/-- Python int() truncation toward zero on a rational. -/
def ratTrunc (q : ℚ) : ℤ := if 0 ≤ q then q.floor else -((-q).floor)

/-- original_X (lines 1004-1012): rebuild the itemized sample list from a
bucketized (value, counter) pairing; each value is repeated int(counter)
times, pairs in their original order (a negative counter repeats zero
times, as list(repeat(x, n)) is empty for negative n). -/
def original_X (zipped_xy : List (ℚ × ℚ)) : List ℚ :=
  zipped_xy.foldl (fun tmp p => tmp ++ List.replicate (ratTrunc p.2).toNat p.1) []

/-- original_X on natural-number frequencies (the claim's reading of the
counters; int() is the identity there). -/
def original_X_nat (l : List (ℚ × ℕ)) : List ℚ :=
  original_X (l.map (fun p => (p.1, (p.2 : ℚ))))

/-- Re-aggregation used by the claim on frequency expansion: run-length
encoding of consecutive equal values. -/
def reagg : List ℚ → List (ℚ × ℕ)
| [] => []
| x :: r =>
  match reagg r with
  | [] => [(x, 1)]
  | (y, n) :: t => if x = y then (y, n + 1) :: t else (x, 1) :: (y, n) :: t

/-- Rational ascending order for sorting sample values. -/
def QLe (a b : ℚ) : Prop := a ≤ b

instance : DecidableRel QLe := fun a b => by unfold QLe; infer_instance

/-- sorted(Counter(xs).items()) of line 1338: the distinct values in
ascending order, each with its multiplicity in xs. -/
def sorted_counter (xs : List ℚ) : List (ℚ × ℚ) :=
  (List.insertionSort QLe xs.dedup).map (fun v => (v, (xs.count v : ℚ)))

/-- The running-total list comprehension of line 1344: element i is the sum
of the first i+1 counts. -/
def running_totals : List ℚ → ℚ → List ℚ
| [], _ => []
| c :: r, acc => (acc + c) :: running_totals r (acc + c)

/-- The normalizing comprehension of line 1345: divide every running total
by the grand total, raising ZeroDivisionError at the first element when the
total is zero (an empty list performs no division). -/
def div_scan (tot : ℚ) : List ℚ → Except PyErr (List ℚ)
| [] => .ok []
| c :: r =>
  if tot = 0 then .error PyErr.zeroDivisionError
  else do
    let rest ← div_scan tot r
    .ok ((c / tot) :: rest)

/-- Empirical CDF values (lines 1341-1345) from a (value, count) pairing:
total the counts, accumulate them, normalize. -/
def cdf_y (counter : List (ℚ × ℚ)) : Except PyErr (List ℚ) :=
  div_scan ((counter.map Prod.snd).sum) (running_totals (counter.map Prod.snd) 0)

/-- The pure value a successful cdf_y returns: the running totals divided
by the grand total. -/
def cdf_values (counter : List (ℚ × ℚ)) : List ℚ :=
  (running_totals (counter.map Prod.snd) 0).map
    (fun c => c / (counter.map Prod.snd).sum)

/-- statistics.quantiles(data, n = 4) in both of CPython's methods, as the
source calls it at lines 1310-1313 (exclusive default) and 1333-1337
(inclusive): fewer than two data points raise StatisticsError; otherwise
the data is sorted and the three cut points are interpolated with exact
rational arithmetic.  Index arithmetic keeps every access in range, so the
total getD default is never used. -/
def quantiles4 (method_inclusive : Bool) (data : List ℚ) : Except PyErr (List ℚ) :=
  let ld := data.length
  if ld < 2 then .error PyErr.statisticsError
  else
    let d := List.insertionSort QLe data
    if method_inclusive then
      let m := ld - 1
      .ok ((List.range 3).map (fun i0 =>
        let i := i0 + 1
        let j := (i * m) / 4
        let delta := ((i * m) % 4 : ℕ)
        (d.getD j 0 * (4 - (delta : ℚ)) + d.getD (j + 1) 0 * (delta : ℚ)) / 4))
    else
      let m := ld + 1
      .ok ((List.range 3).map (fun i0 =>
        let i := i0 + 1
        let j0 := (i * m) / 4
        let delta := ((i * m) % 4 : ℕ)
        let j := max 1 (min (ld - 1) j0)
        (d.getD (j - 1) 0 * (4 - (delta : ℚ)) + d.getD j 0 * (delta : ℚ)) / 4))

/-- Frequency-weighted mean of stat_plot's buckets branch (line 1099):
sum(y * x for the zipped pairs) divided by sum of the y column. -/
def buckets_avg (xs ys : List ℚ) : ℚ :=
  ((xs.zip ys).map (fun p => p.2 * p.1)).sum / ys.sum

/-- Radicand of the frequency-weighted standard deviation of line 1100:
sum(y * (x - avg)^2 for the zipped pairs) divided by sum of the y column;
the source takes math.pow(.., 0.5) of this value. -/
def buckets_var (xs ys : List ℚ) : ℚ :=
  ((xs.zip ys).map (fun p => p.2 * (p.1 - buckets_avg xs ys) ^ 2)).sum / ys.sum

/-- statistics.fmean (line 1095 and lines 1288, 1293): the arithmetic mean,
raising StatisticsError on empty input. -/
def fmean (l : List ℚ) : Except PyErr ℚ :=
  if l.length = 0 then .error PyErr.statisticsError else .ok (l.sum / (l.length : ℚ))

/-- Radicand of statistics.stdev(data, xbar) (line 1096): the sample
variance with the given mean, raising StatisticsError on fewer than two
points. -/
def sample_var (l : List ℚ) (mu : ℚ) : Except PyErr ℚ :=
  if l.length < 2 then .error PyErr.statisticsError
  else .ok ((l.map (fun x => (x - mu) ^ 2)).sum / ((l.length : ℚ) - 1))

/-- Closed real-valued expressions: the theoretical-curve ordinates involve
exp, log and square roots of rationals, which have no rational value; the
embedding carries them as syntax trees so that the computation and its
error structure stay executable. -/
inductive Expr
| c (q : ℚ)
| tauC
| sqrtE (e : Expr)
| expE (e : Expr)
| logE (e : Expr)
| addE (a b : Expr)
| subE (a b : Expr)
| mulE (a b : Expr)
| divE (a b : Expr)
deriving DecidableEq, Repr

/-- The normalization factor a = 1.0/(stddev * sqrt(tau)) of line 1149,
with stddev = sqrt of the variance radicand. -/
def normal_a (varX : ℚ) : Expr :=
  Expr.divE (Expr.c 1) (Expr.mulE (Expr.sqrtE (Expr.c varX)) (Expr.sqrtE Expr.tauC))

/-- One ordinate of the theoretical normal curve of line 1150:
a * exp(-0.5 * ((x - avg)/stddev)^2). -/
def normal_density (avg varX x : ℚ) : Expr :=
  Expr.mulE (normal_a varX)
    (Expr.expE (Expr.mulE (Expr.c (-1/2))
      (Expr.mulE (Expr.divE (Expr.c (x - avg)) (Expr.sqrtE (Expr.c varX)))
        (Expr.divE (Expr.c (x - avg)) (Expr.sqrtE (Expr.c varX))))))

/-- math.factorial: defined on non-negative integers, ValueError otherwise
(newer Pythons also reject non-integral floats). -/
def math_factorial (x : ℚ) : Except PyErr ℕ :=
  if x.den = 1 ∧ 0 ≤ x.num then .ok (Nat.factorial x.num.toNat) else .error PyErr.valueError

/-- One ordinate of the log-domain Poisson curve of line 1190:
exp(x * log(avg) + (-avg - log(x!))). -/
def poisson_density (avg x : ℚ) (fact : ℕ) : Expr :=
  Expr.expE (Expr.addE (Expr.mulE (Expr.c x) (Expr.logE (Expr.c avg)))
    (Expr.subE (Expr.c (-avg)) (Expr.logE (Expr.c (fact : ℚ)))))

/-- One Poisson-curve point, with the domain errors of line 1190:
math.log(avg) raises ValueError for a non-positive mean (evaluated first,
left to right), then math.factorial(x) raises for an invalid x. -/
def poisson_point (avg x : ℚ) : Except PyErr Expr :=
  if avg ≤ 0 then .error PyErr.valueError
  else do
    let f ← math_factorial x
    pure (poisson_density avg x f)

/-- One ordinate of the exponential curve of lines 1244/1249:
rate * exp(-rate * x), with rate = 1/avg. -/
def expon_density (rate x : ℚ) : Expr :=
  Expr.mulE (Expr.c rate) (Expr.expE (Expr.c (-(rate * x))))

/-- The data one stat_plot job reads: the dataset's own series (xs, and ys
for the pre-bucketized kind), and, for the raw kinds, the histogram bin
edges and bin counts that the rendering collaborator (plt.hist) hands
back and over which the source evaluates its curves. -/
structure StatData where
  isBuckets : Bool
  xs : List ℚ
  ys : List ℚ
  binEdges : List ℚ
  binCounts : List ℚ
deriving DecidableEq, Repr

/-- Everything stat_plot computes for one dataset: the fitted moments, the
four theoretical curves, the Poisson quantile thresholds (None when their
guarded block failed), the quartiles and the empirical CDF ordinates. -/
structure StatResult where
  avg : ℚ
  varX : ℚ
  normalCurve : List Expr
  poissonCurve : List Expr
  poissonQuantiles : Option (List ℚ)
  exponentialCurve : List Expr
  uniformLevel : ℚ
  quartiles : List ℚ
  cdfY : List ℚ
deriving DecidableEq, Repr

/-- The mean/stddev step of lines 1094-1101: plain fmean and sample stdev
for raw samples (StatisticsError on too-small input); the frequency-weighted
forms for buckets, where a zero total raises ZeroDivisionError and
math.pow of a negative radicand would raise ValueError. -/
def moments (d : StatData) : Except PyErr (ℚ × ℚ) :=
  if d.isBuckets then
    if d.ys.sum = 0 then Except.error PyErr.zeroDivisionError
    else if buckets_var d.xs d.ys < 0 then Except.error PyErr.valueError
    else pure (buckets_avg d.xs d.ys, buckets_var d.xs d.ys)
  else do
    let avg ← fmean d.xs
    let v ← sample_var d.xs avg
    pure (avg, v)

/-- ZeroDivisionError from dividing by the given quantity when it is 0. -/
def nonzero_div (q : ℚ) : Except PyErr Unit :=
  if q = 0 then Except.error PyErr.zeroDivisionError else pure ()

/-- The guarded Poisson-quantile block (lines 1221-1236): the five
inverse-CDF thresholds via the external ppf; the bare except turns any
failure into an absent result. -/
def poisson_quantiles (ppf : ℚ → ℚ → Except PyErr ℚ) (avg : ℚ) : Option (List ℚ) :=
  match [(1 : ℚ)/4, 1/2, 3/4, 9/10, 99/100].mapM (fun p => ppf p avg) with
  | Except.ok l => some l
  | Except.error _ => Option.none

/-- The computational skeleton of stat_plot (lines 1075-1363), in source
order.  ppf stands for scipy.stats.poisson.ppf, an external collaborator,
passed in as an oracle.  Only the Poisson-quantile block (lines 1222-1236)
is guarded by try/except; every other step's exception propagates and
aborts the whole job. -/
def stat_plot (ppf : ℚ → ℚ → Except PyErr ℚ) (d : StatData) :
    Except PyErr StatResult := do
  let st ← moments d
  let avg := st.1
  let varX := st.2
  let xv := if d.isBuckets then d.xs else d.binEdges
  let _u1 ← nonzero_div varX
  let normalCurve := xv.map (normal_density avg varX)
  let pxs := if d.isBuckets then d.xs else d.binEdges.map (fun x => ((ratTrunc x : ℤ) : ℚ))
  let poissonCurve ← pxs.mapM (poisson_point avg)
  let pq := poisson_quantiles ppf avg
  let _u2 ← nonzero_div avg
  let rate := 1 / avg
  let exponentialCurve := (xv.filter (fun x => decide (0 < x))).map (expon_density rate)
  let uniformLevel ← fmean (if d.isBuckets then d.ys else d.binCounts)
  let qdata := if d.isBuckets then original_X (d.xs.zip d.ys) else d.xs
  let quartiles ← quantiles4 false qdata
  let _qinc ← quantiles4 true qdata
  let counter := if d.isBuckets then d.xs.zip d.ys else sorted_counter d.xs
  let cdfY ← cdf_y counter
  pure (StatResult.mk avg varX normalCurve poissonCurve pq exponentialCurve
    uniformLevel quartiles cdfY)

/-- The per-dataset statistics jobs: the surrounding system runs one
isolated stat_plot per eligible dataset. -/
def stat_all (ppf : ℚ → ℚ → Except PyErr ℚ) (ds : List StatData) :
    List (Except PyErr StatResult) := ds.map (stat_plot ppf)

/-- Forget the Poisson-quantile field of a fit result: the only field the
external ppf oracle can influence. -/
def scrub_quantiles (r : StatResult) : StatResult :=
  StatResult.mk r.avg r.varX r.normalCurve r.poissonCurve Option.none
    r.exponentialCurve r.uniformLevel r.quartiles r.cdfY

/-- Whether an embedded value is a number at least the given bound (the
value of the comparison x >= min-x on a numeric series). -/
def geB (mb : ℚ) : PyVal → Bool
| .num q => decide (mb ≤ q)
| _ => false

/-- Whether an embedded value is a number strictly above the given bound
(the value of the comparison x > max-x on a numeric series). -/
def gtB (mb : ℚ) : PyVal → Bool
| .num q => decide (mb < q)
| _ => false

/-- String ascending order (Python's, by code point) as a decidable
relation. -/
def StrLe (a b : String) : Prop := pyStrLe a b = true

instance : DecidableRel StrLe := fun a b => by unfold StrLe; infer_instance

/-- The xticks_labels/merged_x accumulation of do_plot_group_bars (lines
871-878): the union of the datasets' category keys in order of first
appearance across all datasets. -/
def first_seen_union (plots : List (List String)) : List String :=
  plots.foldl (fun acc xs =>
    xs.foldl (fun acc2 x => if x ∈ acc2 then acc2 else acc2 ++ [x]) acc) []

/-- The shared categorical domain (lines 871-881): the first-appearance
union, sorted ascending. -/
def merged_categories (plots : List (List String)) : List String :=
  List.insertionSort StrLe (first_seen_union plots)

/-- The gap sentinel of lines 889/897: the empty string for a categorical
y, nan for a numeric y. -/
def gap_sentinel (catY : Bool) : PyVal := if catY then PyVal.str ("") else PyVal.nan

/-- The realignment comprehensions of lines 889 and 897: for every key of
the shared domain, the dataset's y value at that key (looked up at the
first occurrence of the key in the dataset's x) or the gap sentinel.  The
getD default (PyVal.none) is unreachable when the dataset satisfies
the |x| = |y| pairing invariant. -/
def align_y (catY : Bool) (mx px : List String) (py : List PyVal) : List PyVal :=
  mx.map (fun x =>
    if x ∈ px then py.getD (px.indexOf x) PyVal.none else gap_sentinel catY)

/-- The presentation hack of lines 890-894: in the first categorical-y
dataset whose realigned sequence contains the empty-string sentinel, the
first such sentinel is removed and re-inserted at the front; the walrus
test (pos := index > -1) is always true, so the hack fires exactly when the
flag is unset and a sentinel is present. -/
def move_gap_front (found : Bool) (l : List PyVal) : List PyVal × Bool :=
  if !found && decide (PyVal.str ("") ∈ l) then
    ((PyVal.str ("")) :: l.erase (PyVal.str ("")), true)
  else (l, found)

/-- One grouped categorical dataset as do_plot_group_bars sees it. -/
structure CatPlot where
  isCatY : Bool
  x : List String
  y : List PyVal
deriving DecidableEq, Repr

/-- The per-dataset loop of do_plot_group_bars (lines 884-903) restricted
to what it computes for categorical-in-x datasets in a group of two or
more: each dataset's y_data realigned to the shared domain, with the
null_value_found flag threaded across datasets and the move-to-front hack
applied only on the categorical-y branch. -/
def group_align (plots : List CatPlot) : List (List PyVal) :=
  let mx := merged_categories (plots.map CatPlot.x)
  (plots.foldl (fun st p =>
    let y0 := align_y p.isCatY mx p.x p.y
    if p.isCatY then
      let pr := move_gap_front st.2 y0
      (st.1 ++ [pr.1], pr.2)
    else (st.1 ++ [y0], st.2)) (([] : List (List PyVal)), false)).1

/-- Modelled from the spec: the frequency-weighted mean written in its own
words, Σ(value·freq)/Σfreq over the paired form (refinement target for the
code's buckets_avg). -/
def spec_weighted_mean (pairs : List (ℚ × ℚ)) : ℚ :=
  (pairs.map (fun p => p.1 * p.2)).sum / (pairs.map Prod.snd).sum

/-- Modelled from the spec: the population-form weighted variance written
in its own words, Σ(freq·(value−mean)²)/Σfreq (refinement target for the
code's buckets_var; the standard deviation is its square root on both
sides). -/
def spec_pop_var (pairs : List (ℚ × ℚ)) : ℚ :=
  (pairs.map (fun p => p.2 * (p.1 - spec_weighted_mean pairs) ^ 2)).sum /
    (pairs.map Prod.snd).sum

/-- Destructuring a successful Except bind. -/
theorem exc_bind_ok {α β : Type} {x : Except PyErr α} {f : α → Except PyErr β} {b : β} :
    (x >>= f) = Except.ok b ↔ ∃ a, x = Except.ok a ∧ f a = Except.ok b := by
  cases x <;> simp [Bind.bind, Except.bind]

/-- The codepoint order is asymmetric. -/
theorem strLt_asymm : ∀ (a b : List Char), strLt a b = true → strLt b a = true → False := by
  intro a
  induction a with
  | nil => intro b h1 h2; cases b <;> simp [strLt] at h1 h2
  | cons x xs ih =>
    intro b h1 h2
    cases b with
    | nil => simp [strLt] at h1
    | cons y ys =>
      simp only [strLt] at h1 h2
      rcases Nat.lt_trichotomy x.toNat y.toNat with h | h | h
      · rw [if_neg (Nat.lt_asymm h), if_pos h] at h2
        exact Bool.false_ne_true h2
      · rw [if_neg (h ▸ Nat.lt_irrefl _), if_neg (h ▸ Nat.lt_irrefl _)] at h1 h2
        exact ih ys h1 h2
      · rw [if_neg (Nat.lt_asymm h), if_pos h] at h1
        exact Bool.false_ne_true h1

/-- The codepoint order is transitive. -/
theorem strLt_trans : ∀ (a b c : List Char),
    strLt a b = true → strLt b c = true → strLt a c = true := by
  intro a
  induction a with
  | nil =>
    intro b c h1 h2
    cases b with
    | nil => simp [strLt] at h1
    | cons y ys => cases c with
      | nil => simp [strLt] at h2
      | cons z zs => simp [strLt]
  | cons x xs ih =>
    intro b c h1 h2
    cases b with
    | nil => simp [strLt] at h1
    | cons y ys =>
      cases c with
      | nil => simp [strLt] at h2
      | cons z zs =>
        simp only [strLt] at h1 h2 ⊢
        rcases Nat.lt_trichotomy x.toNat y.toNat with hxy | hxy | hxy
        · rcases Nat.lt_trichotomy y.toNat z.toNat with hyz | hyz | hyz
          · rw [if_pos (Nat.lt_trans hxy hyz)]
          · rw [if_pos (hyz ▸ hxy)]
          · rw [if_neg (Nat.lt_asymm hyz), if_pos hyz] at h2
            exact absurd h2 (by simp)
        · rcases Nat.lt_trichotomy y.toNat z.toNat with hyz | hyz | hyz
          · rw [if_pos (hxy ▸ hyz)]
          · rw [if_neg (by rw [hxy, hyz]; exact Nat.lt_irrefl _),
               if_neg (by rw [hxy, hyz]; exact Nat.lt_irrefl _)]
            rw [if_neg (hxy ▸ Nat.lt_irrefl _), if_neg (hxy ▸ Nat.lt_irrefl _)] at h1
            rw [if_neg (hyz ▸ Nat.lt_irrefl _), if_neg (hyz ▸ Nat.lt_irrefl _)] at h2
            exact ih ys zs h1 h2
          · rw [if_neg (Nat.lt_asymm hyz), if_pos hyz] at h2
            exact absurd h2 (by simp)
        · rw [if_neg (Nat.lt_asymm hxy), if_pos hxy] at h1
          exact absurd h1 (by simp)

/-- Codepoint-order trichotomy on character lists. -/
theorem strLt_trichot : ∀ (a b : List Char),
    strLt a b = true ∨ a = b ∨ strLt b a = true := by
  intro a
  induction a with
  | nil => intro b; cases b with
    | nil => exact Or.inr (Or.inl rfl)
    | cons y ys => exact Or.inl (by simp [strLt])
  | cons x xs ih =>
    intro b
    cases b with
    | nil => exact Or.inr (Or.inr (by simp [strLt]))
    | cons y ys =>
      rcases Nat.lt_trichotomy x.toNat y.toNat with h | h | h
      · exact Or.inl (by simp only [strLt]; rw [if_pos h])
      · have hxy : x = y := Char.eq_of_val_eq (UInt32.ext h)
        rcases ih ys with h1 | h1 | h1
        · refine Or.inl ?_
          simp only [strLt]
          rw [if_neg (h ▸ Nat.lt_irrefl _), if_neg (h ▸ Nat.lt_irrefl _)]
          exact h1
        · exact Or.inr (Or.inl (by rw [hxy, h1]))
        · refine Or.inr (Or.inr ?_)
          simp only [strLt]
          rw [if_neg (h ▸ Nat.lt_irrefl _), if_neg (h ▸ Nat.lt_irrefl _)]
          exact h1
      · exact Or.inr (Or.inr (by simp only [strLt]; rw [if_pos h]))

/-- String trichotomy in the codepoint order. -/
theorem pyStrLt_trichot (a b : String) :
    pyStrLt a b = true ∨ a = b ∨ pyStrLt b a = true := by
  rcases strLt_trichot a.toList b.toList with h | h | h
  · exact Or.inl h
  · exact Or.inr (Or.inl (String.ext h))
  · exact Or.inr (Or.inr h)

/-- The string order pyStrLe is transitive. -/
theorem pyStrLe_trans {a b c : String} (h1 : pyStrLe a b = true) (h2 : pyStrLe b c = true) :
    pyStrLe a c = true := by
  unfold pyStrLe at h1 h2 ⊢
  rw [Bool.not_eq_true'] at h1 h2 ⊢
  cases hv : pyStrLt c a with
  | false => rfl
  | true =>
    exfalso
    rcases pyStrLt_trichot a b with hab | hab | hab
    · have : pyStrLt c b = true := strLt_trans _ _ _ hv hab
      rw [h2] at this
      exact Bool.false_ne_true this
    · rw [hab] at hv
      rw [h2] at hv
      exact Bool.false_ne_true hv
    · rw [h1] at hab
      exact Bool.false_ne_true hab

/-- The string order pyStrLe is total. -/
theorem pyStrLe_total (a b : String) : pyStrLe a b = true ∨ pyStrLe b a = true := by
  unfold pyStrLe
  rw [Bool.not_eq_true', Bool.not_eq_true']
  cases h1 : pyStrLt b a with
  | false => exact Or.inl rfl
  | true =>
    cases h2 : pyStrLt a b with
    | false => exact Or.inr rfl
    | true => exact absurd (strLt_asymm _ _ h2 h1) (fun h => h)

/-- The sort key order on embedded values is transitive. -/
theorem pyKeyLe_trans (a b c : PyVal) (h1 : pyKeyLe a b = true) (h2 : pyKeyLe b c = true) :
    pyKeyLe a c = true := by
  cases a <;> cases b <;> cases c <;>
    simp only [pyKeyLe] at h1 h2 ⊢ <;>
    first
    | rfl
    | exact h1
    | exact h2
    | exact absurd h1 Bool.false_ne_true
    | exact absurd h2 Bool.false_ne_true
    | exact decide_eq_true (le_trans (of_decide_eq_true h1) (of_decide_eq_true h2))
    | exact pyStrLe_trans h1 h2

/-- The sort key order on embedded values is total. -/
theorem pyKeyLe_total (a b : PyVal) : pyKeyLe a b = true ∨ pyKeyLe b a = true := by
  cases a <;> cases b <;> simp only [pyKeyLe] <;>
    first
    | exact Or.inl trivial
    | exact Or.inr trivial
    | exact Or.inl rfl
    | exact Or.inr rfl
    | exact (le_total _ _).imp decide_eq_true decide_eq_true
    | exact pyStrLe_total _ _

/-- pySortedPairs is sorted in the key order. -/
theorem pySortedPairs_sorted (l : List (PyVal × PyVal)) :
    List.Pairwise PvFstLe (pySortedPairs l) :=
  @List.sorted_insertionSort _ PvFstLe _
    ⟨fun a b => pyKeyLe_total a.1 b.1⟩
    ⟨fun a b c h1 h2 => pyKeyLe_trans a.1 b.1 c.1 h1 h2⟩ l

/-- pySortedPairs permutes its input. -/
theorem pySortedPairs_perm (l : List (PyVal × PyVal)) : (pySortedPairs l).Perm l :=
  List.perm_insertionSort PvFstLe l

/-- pySorted is sorted in the key order. -/
theorem pySorted_sorted (l : List PyVal) : List.Pairwise PvLe (pySorted l) :=
  @List.sorted_insertionSort _ PvLe _
    ⟨fun a b => pyKeyLe_total a b⟩
    ⟨fun a b c h1 h2 => pyKeyLe_trans a b c h1 h2⟩ l

/-- pySorted permutes its input. -/
theorem pySorted_perm (l : List PyVal) : (pySorted l).Perm l :=
  List.perm_insertionSort PvLe l

/-- The merged categorical domain is sorted ascending. -/
theorem merged_categories_sorted (plots : List (List String)) :
    List.Pairwise StrLe (merged_categories plots) :=
  @List.sorted_insertionSort _ StrLe _
    ⟨fun a b => pyStrLe_total a b⟩
    ⟨fun _ _ _ h1 h2 => pyStrLe_trans h1 h2⟩ (first_seen_union plots)

/-- The merged categorical domain permutes the first-appearance union. -/
theorem merged_categories_perm (plots : List (List String)) :
    (merged_categories plots).Perm (first_seen_union plots) :=
  List.perm_insertionSort StrLe (first_seen_union plots)

/-- Evaluating the lower scan when every comparison is defined: the first
matching index, or the for-else fallback 0 when nothing matches. -/
theorem scan_lower_eval (b : PyVal) (pred : PyVal → Bool) :
    ∀ (xs : List PyVal), (∀ v ∈ xs, pyGe v b = Except.ok (pred v)) → ∀ (s : ℕ),
    scan_lower b xs s =
      Except.ok (if xs.any pred then s + xs.findIdx pred else 0) := by
  intro xs
  induction xs with
  | nil => intro h s; simp [scan_lower]
  | cons v r ih =>
    intro h s
    have hv : pyGe v b = Except.ok (pred v) := h v (List.mem_cons_self v r)
    have hr : ∀ w ∈ r, pyGe w b = Except.ok (pred w) :=
      fun w hw => h w (List.mem_cons_of_mem v hw)
    simp only [scan_lower, hv, Bind.bind, Except.bind]
    cases hp : pred v
    · rw [ih hr (s + 1)]
      by_cases ha : r.any pred
      · simp [List.any_cons, hp, ha, List.findIdx_cons]
        omega
      · simp [List.any_cons, hp, ha, List.findIdx_cons]
    · simp [List.any_cons, hp, List.findIdx_cons]

/-- Evaluating the upper scan when every comparison is defined: the first
matching index, or the for-else fallback (the running index past the end,
i.e. the length when started at 0). -/
theorem scan_upper_eval (b : PyVal) (pred : PyVal → Bool) :
    ∀ (xs : List PyVal), (∀ v ∈ xs, pyGt v b = Except.ok (pred v)) → ∀ (s : ℕ),
    scan_upper b xs s =
      Except.ok (if xs.any pred then s + xs.findIdx pred else s + xs.length) := by
  intro xs
  induction xs with
  | nil => intro h s; simp [scan_upper]
  | cons v r ih =>
    intro h s
    have hv : pyGt v b = Except.ok (pred v) := h v (List.mem_cons_self v r)
    have hr : ∀ w ∈ r, pyGt w b = Except.ok (pred w) :=
      fun w hw => h w (List.mem_cons_of_mem v hw)
    simp only [scan_upper, hv, Bind.bind, Except.bind]
    cases hp : pred v
    · rw [ih hr (s + 1)]
      by_cases ha : r.any pred
      · simp [List.any_cons, hp, ha, List.findIdx_cons]
        omega
      · simp [List.any_cons, hp, ha, List.findIdx_cons]
        omega
    · simp [List.any_cons, hp, List.findIdx_cons]

/-- Evaluating the blanking comprehension when every comparison is defined:
in-range values are kept, the rest become the nan sentinel, pointwise. -/
theorem blank_scan_eval (keep : PyVal → PyVal → Except PyErr Bool) (b : PyVal)
    (pred : PyVal → Bool) :
    ∀ (xs : List PyVal), (∀ v ∈ xs, keep v b = Except.ok (pred v)) →
    blank_scan keep b xs =
      Except.ok (xs.map (fun c => if pred c then c else PyVal.nan)) := by
  intro xs
  induction xs with
  | nil => intro h; simp [blank_scan]
  | cons v r ih =>
    intro h
    have hv : keep v b = Except.ok (pred v) := h v (List.mem_cons_self v r)
    have hr : ∀ w ∈ r, keep w b = Except.ok (pred w) :=
      fun w hw => h w (List.mem_cons_of_mem v hw)
    simp only [blank_scan, hv, ih hr, Bind.bind, Except.bind, List.map_cons]

/-- Whatever a successful blanking pass returns has the input's length, and
each of its entries is the nan sentinel or one of the input values. -/
theorem blank_scan_ok {keep : PyVal → PyVal → Except PyErr Bool} {b : PyVal} :
    ∀ {xs out : List PyVal}, blank_scan keep b xs = Except.ok out →
    out.length = xs.length ∧ ∀ v ∈ out, v = PyVal.nan ∨ v ∈ xs := by
  intro xs
  induction xs with
  | nil =>
    intro out h
    simp only [blank_scan] at h
    cases h
    exact ⟨rfl, by simp⟩
  | cons c r ih =>
    intro out h
    simp only [blank_scan, Bind.bind] at h
    rcases exc_bind_ok.mp h with ⟨k, hk, h2⟩
    rcases exc_bind_ok.mp h2 with ⟨rest, hrest, h3⟩
    cases h3
    rcases ih hrest with ⟨hlen, hmem⟩
    constructor
    · simp [hlen]
    · intro v hv
      rcases List.mem_cons.mp hv with hv | hv
      · cases k
        · exact Or.inl (by simpa using hv)
        · exact Or.inr (by simp at hv; simp [hv])
      · rcases hmem v hv with h | h
        · exact Or.inl h
        · exact Or.inr (List.mem_cons_of_mem c h)

/-- Whatever a successful min-y step returns has the input's length and
only blanks entries in place. -/
theorem apply_min_y_ok {catY : Bool} {ys : List PyVal} {minY : PyVal}
    {ys1 : List PyVal} {mn : PyVal}
    (h : apply_min_y catY ys minY = Except.ok (ys1, mn)) :
    ys1.length = ys.length ∧ ∀ v ∈ ys1, v = PyVal.nan ∨ v ∈ ys := by
  unfold apply_min_y at h
  by_cases ht : pyTruthy minY = true
  · rw [if_pos ht] at h
    rcases exc_bind_ok.mp h with ⟨l, hl, hp⟩
    simp only [pure, Except.pure, Except.ok.injEq, Prod.mk.injEq] at hp
    rcases hp with ⟨hp1, hp2⟩
    subst hp1
    exact blank_scan_ok hl
  · rw [if_neg ht] at h
    rcases exc_bind_ok.mp h with ⟨m, _, hp⟩
    simp only [pure, Except.pure, Except.ok.injEq, Prod.mk.injEq] at hp
    rcases hp with ⟨hp1, hp2⟩
    subst hp1
    exact ⟨rfl, fun v hv => Or.inr hv⟩

/-- Whatever a successful max-y step returns has the input's length and
only blanks entries in place. -/
theorem apply_max_y_ok {catY : Bool} {ys : List PyVal} {maxY : PyVal}
    {ys2 : List PyVal} {mx : PyVal}
    (h : apply_max_y catY ys maxY = Except.ok (ys2, mx)) :
    ys2.length = ys.length ∧ ∀ v ∈ ys2, v = PyVal.nan ∨ v ∈ ys := by
  unfold apply_max_y at h
  by_cases ht : pyTruthy maxY = true
  · rw [if_pos ht] at h
    rcases exc_bind_ok.mp h with ⟨l, hl, hp⟩
    simp only [pure, Except.pure, Except.ok.injEq, Prod.mk.injEq] at hp
    rcases hp with ⟨hp1, hp2⟩
    subst hp1
    exact blank_scan_ok hl
  · rw [if_neg ht] at h
    rcases exc_bind_ok.mp h with ⟨m, _, hp⟩
    simp only [pure, Except.pure, Except.ok.injEq, Prod.mk.injEq] at hp
    rcases hp with ⟨hp1, hp2⟩
    subst hp1
    exact ⟨rfl, fun v hv => Or.inr hv⟩

/-- Whatever a successful y_range returns has the input's length, and each
entry is the nan gap sentinel or one of the input y values: blanking never
deletes a position. -/
theorem y_range_ok {catY : Bool} {ys : List PyVal} {mn mx : PyVal}
    {out : List PyVal} {mn2 mx2 : PyVal}
    (h : y_range catY ys mn mx = Except.ok (out, mn2, mx2)) :
    out.length = ys.length ∧ ∀ v ∈ out, v = PyVal.nan ∨ v ∈ ys := by
  unfold y_range at h
  rcases exc_bind_ok.mp h with ⟨minY1, hm1, h⟩
  rcases exc_bind_ok.mp h with ⟨maxY1, hm2, h⟩
  rcases exc_bind_ok.mp h with ⟨⟨ys1, mnv⟩, hst1, h⟩
  rcases exc_bind_ok.mp h with ⟨⟨ys2, mxv⟩, hst2, h⟩
  simp only [pure, Except.pure, Except.ok.injEq, Prod.mk.injEq] at h
  rcases h with ⟨h1, h2, h3⟩
  subst h1
  rcases apply_min_y_ok hst1 with ⟨l1, m1⟩
  rcases apply_max_y_ok hst2 with ⟨l2, m2⟩
  refine ⟨l2.trans l1, fun v hv => ?_⟩
  rcases m2 v hv with hcase | hcase
  · exact Or.inl hcase
  · rcases m1 v hcase with hcase2 | hcase2
    · exact Or.inl hcase2
    · exact Or.inr hcase2

/-- Truncation of a natural number embedded in the rationals is itself. -/
theorem ratTrunc_natCast (n : ℕ) : ratTrunc (n : ℚ) = (n : ℤ) := by
  unfold ratTrunc
  rw [if_pos (by positivity)]
  rw [Rat.floor_def']
  simp

/-- The expansion fold with an explicit accumulator prefixes it. -/
theorem original_X_acc (l : List (ℚ × ℚ)) : ∀ acc : List ℚ,
    l.foldl (fun tmp p => tmp ++ List.replicate (ratTrunc p.2).toNat p.1) acc =
      acc ++ original_X l := by
  induction l with
  | nil => intro acc; simp [original_X]
  | cons p t ih =>
    intro acc
    simp only [original_X, List.foldl_cons, List.nil_append] at ih ⊢
    rw [ih (acc ++ List.replicate (ratTrunc p.2).toNat p.1),
      ih (List.replicate (ratTrunc p.2).toNat p.1), List.append_assoc]

/-- The expansion of a cons. -/
theorem original_X_cons (p : ℚ × ℚ) (t : List (ℚ × ℚ)) :
    original_X (p :: t) = List.replicate (ratTrunc p.2).toNat p.1 ++ original_X t := by
  simp only [original_X, List.foldl_cons, List.nil_append]
  exact original_X_acc t _

/-- The natural-frequency expansion of a cons. -/
theorem original_X_nat_cons (p : ℚ × ℕ) (t : List (ℚ × ℕ)) :
    original_X_nat (p :: t) = List.replicate p.2 p.1 ++ original_X_nat t := by
  simp only [original_X_nat, List.map_cons]
  rw [original_X_cons]
  simp [ratTrunc_natCast]

/-- Every expanded sample is one of the pair values. -/
theorem mem_original_X_nat {v : ℚ} : ∀ {l : List (ℚ × ℕ)},
    v ∈ original_X_nat l → ∃ p ∈ l, v = p.1 := by
  intro l
  induction l with
  | nil => intro h; simp [original_X_nat, original_X] at h
  | cons p t ih =>
    intro h
    rw [original_X_nat_cons] at h
    rcases List.mem_append.mp h with h | h
    · exact ⟨p, List.mem_cons_self p t, List.eq_of_mem_replicate h⟩
    · rcases ih h with ⟨q, hq, hv⟩
      exact ⟨q, List.mem_cons_of_mem p hq, hv⟩

/-- With pairwise-distinct values, each value occurs in the expansion
exactly its frequency many times. -/
theorem count_original_X_nat : ∀ (l : List (ℚ × ℕ)),
    l.Pairwise (fun a b => a.1 ≠ b.1) → ∀ p ∈ l,
    (original_X_nat l).count p.1 = p.2 := by
  intro l
  induction l with
  | nil => intro _ p hp; simp at hp
  | cons q t ih =>
    intro hdist p hp
    have hq : ∀ b ∈ t, q.1 ≠ b.1 := fun b hb => List.rel_of_pairwise_cons hdist hb
    rw [original_X_nat_cons, List.count_append]
    rcases List.mem_cons.mp hp with hp | hp
    · subst hp
      have hzero : (original_X_nat t).count p.1 = 0 := by
        rw [List.count_eq_zero]
        intro hmem
        rcases mem_original_X_nat hmem with ⟨b, hb, hv⟩
        exact hq b hb hv
      rw [hzero, List.count_replicate]
      simp
    · have hne : q.1 ≠ p.1 := hq p hp
      rw [List.count_replicate, if_neg (by simpa using hne)]
      rw [Nat.zero_add]
      exact ih (List.Pairwise.of_cons hdist) p hp

/-- One unfolding step of run-length re-aggregation. -/
theorem reagg_cons (x : ℚ) (r : List ℚ) :
    reagg (x :: r) =
      match reagg r with
      | [] => [(x, 1)]
      | (y, n) :: t => if x = y then (y, n + 1) :: t else (x, 1) :: (y, n) :: t := rfl

/-- Run-length re-aggregation of a positive block of one value in front of
a remainder that starts (if at all) with a different value. -/
theorem reagg_replicate_cons (v : ℚ) : ∀ (k : ℕ) (rest : List ℚ),
    (rest = [] ∨ ∃ w m t, reagg rest = (w, m) :: t ∧ w ≠ v) →
    reagg (List.replicate (k + 1) v ++ rest) = (v, k + 1) :: reagg rest := by
  intro k
  induction k with
  | zero =>
    intro rest hrest
    have hstep : List.replicate (0 + 1) v ++ rest = v :: rest := by
      simp [List.replicate]
    rw [hstep, reagg_cons]
    rcases hrest with h | ⟨w, m, t, hw, hne⟩
    · subst h
      simp [reagg]
    · rw [hw]
      have hvw : ¬ v = w := fun hh => hne (Eq.symm hh)
      simp [hvw]
  | succ k ih =>
    intro rest hrest
    have hinner := ih rest hrest
    have hstep : List.replicate (k + 1 + 1) v ++ rest =
        v :: (List.replicate (k + 1) v ++ rest) := by
      simp [List.replicate_succ]
    rw [hstep, reagg_cons, hinner]
    simp

/-- Re-aggregating the expansion of distinct-valued, positive-frequency
pairs recovers the pairs. -/
theorem reagg_original_X_nat : ∀ (l : List (ℚ × ℕ)),
    l.Pairwise (fun a b => a.1 ≠ b.1) → (∀ p ∈ l, 0 < p.2) →
    reagg (original_X_nat l) = l := by
  intro l
  induction l with
  | nil => intro _ _; rfl
  | cons p t ih =>
    intro hdist hpos
    have hq : ∀ b ∈ t, p.1 ≠ b.1 := fun b hb => List.rel_of_pairwise_cons hdist hb
    obtain ⟨k, hk⟩ : ∃ k, p.2 = k + 1 := by
      have := hpos p (List.mem_cons_self p t)
      exact ⟨p.2 - 1, by omega⟩
    have hrec : reagg (original_X_nat t) = t :=
      ih (List.Pairwise.of_cons hdist)
        (fun q hq2 => hpos q (List.mem_cons_of_mem p hq2))
    have hside : original_X_nat t = [] ∨
        ∃ w m t2, reagg (original_X_nat t) = (w, m) :: t2 ∧ w ≠ p.1 := by
      cases t with
      | nil => exact Or.inl rfl
      | cons q t2 =>
        right
        refine ⟨q.1, q.2, t2, ?_, fun hh => hq q (List.mem_cons_self q t2) hh.symm⟩
        rw [Prod.mk.eta]
        exact hrec
    rw [original_X_nat_cons, hk,
      reagg_replicate_cons p.1 k (original_X_nat t) hside, hrec, ← hk,
      Prod.mk.eta]

/-- C3 counterexample: a pair with frequency 0 expands to the empty list,
whose re-aggregation is empty and does not recover the original pairs — so
the claim's round trip fails for merely non-negative frequencies. -/
theorem c3_counterexample :
    original_X_nat [((1 : ℚ), 0)] = [] ∧
    reagg (original_X_nat [((1 : ℚ), 0)]) = [] ∧
    reagg (original_X_nat [((1 : ℚ), 0)]) ≠ [((1 : ℚ), 0)] := by decide

/-- C3 (amended): for pairs with pairwise-distinct values and positive
integer frequencies, original_X expands each pair's value exactly its
frequency many times, consecutively and in the pairs' original order
(in particular (v1,2),(v2,3) expands to [v1,v1,v2,v2,v2]), and run-length
re-aggregation of the expansion recovers the original pairs.  (With a zero
frequency the expansion statement still holds but the round trip fails,
see the counterexample.) -/
theorem c3_theorem (l : List (ℚ × ℕ))
    (hdist : l.Pairwise (fun a b => a.1 ≠ b.1)) (hpos : ∀ p ∈ l, 0 < p.2) :
    (∀ v1 v2 : ℚ, original_X_nat [(v1, 2), (v2, 3)] = [v1, v1, v2, v2, v2]) ∧
    (∀ p ∈ l, (original_X_nat l).count p.1 = p.2) ∧
    reagg (original_X_nat l) = l := by
  refine ⟨?_, count_original_X_nat l hdist, reagg_original_X_nat l hdist hpos⟩
  intro v1 v2
  rw [original_X_nat_cons, original_X_nat_cons]
  simp [original_X_nat, original_X, List.replicate]

/-- C3 witness: the amended statement evaluated on (5, 2), (7, 3). -/
theorem c3_theorem_witness :
    original_X_nat [((5 : ℚ), 2), ((7 : ℚ), 3)] = [5, 5, 7, 7, 7] ∧
    (original_X_nat [((5 : ℚ), 2), ((7 : ℚ), 3)]).count 5 = 2 ∧
    reagg (original_X_nat [((5 : ℚ), 2), ((7 : ℚ), 3)]) =
      [((5 : ℚ), 2), ((7 : ℚ), 3)] := by
  have h := c3_theorem [((5 : ℚ), 2), ((7 : ℚ), 3)] (by decide) (by decide)
  exact ⟨h.1 5 7, h.2.1 ((5 : ℚ), 2) (by decide), h.2.2⟩

/-- Evaluating the normalization when the total is non-zero. -/
theorem div_scan_eval (tot : ℚ) (h : tot ≠ 0) :
    ∀ l : List ℚ, div_scan tot l = Except.ok (l.map (fun c => c / tot)) := by
  intro l
  induction l with
  | nil => simp [div_scan]
  | cons c r ih =>
    simp only [div_scan, if_neg h, ih, Bind.bind, Except.bind, List.map_cons]

/-- The last running total is the accumulator plus the whole sum. -/
theorem running_totals_getLast : ∀ (l : List ℚ) (acc : ℚ), l ≠ [] →
    (running_totals l acc).getLast? = some (acc + l.sum) := by
  intro l
  induction l with
  | nil => intro acc h; exact absurd rfl h
  | cons c r ih =>
    intro acc _
    by_cases hr : r = []
    · subst hr
      simp [running_totals]
    · have step : running_totals (c :: r) acc =
        (acc + c) :: running_totals r (acc + c) := rfl
      obtain ⟨d, L, hL⟩ : ∃ d L, running_totals r (acc + c) = d :: L := by
        cases r with
        | nil => exact absurd rfl hr
        | cons c2 r2 => exact ⟨_, _, rfl⟩
      rw [step, hL, List.getLast?_cons_cons, ← hL, ih (acc + c) hr,
        List.sum_cons, add_assoc]

/-- Running totals of non-negative counts are non-decreasing. -/
theorem running_totals_chain : ∀ (l : List ℚ), (∀ c ∈ l, 0 ≤ c) →
    ∀ acc : ℚ, List.Chain' (fun a b : ℚ => a ≤ b) (running_totals l acc) := by
  intro l
  induction l with
  | nil => intro _ acc; simp [running_totals]
  | cons c r ih =>
    intro h acc
    have hr : ∀ d ∈ r, 0 ≤ d := fun d hd => h d (List.mem_cons_of_mem c hd)
    have step : running_totals (c :: r) acc =
      (acc + c) :: running_totals r (acc + c) := rfl
    rw [step, List.chain'_cons']
    refine ⟨?_, ih hr (acc + c)⟩
    intro y hy
    cases r with
    | nil => simp [running_totals] at hy
    | cons c2 r2 =>
      have : (running_totals (c2 :: r2) (acc + c)).head? = some (acc + c + c2) := rfl
      rw [this] at hy
      cases hy
      exact le_add_of_nonneg_right (hr c2 (List.mem_cons_self c2 r2))

/-- A successful empirical CDF is the normalized running totals,
non-decreasing and ending at exactly 1. -/
theorem cdf_y_props (counter : List (ℚ × ℚ)) (hnn : ∀ p ∈ counter, 0 ≤ p.2)
    (hpos : 0 < (counter.map Prod.snd).sum) :
    cdf_y counter = Except.ok (cdf_values counter) ∧
    List.Chain' (fun a b : ℚ => a ≤ b) (cdf_values counter) ∧
    (cdf_values counter).getLast? = some 1 := by
  have htot : (counter.map Prod.snd).sum ≠ 0 := ne_of_gt hpos
  refine ⟨?_, ?_, ?_⟩
  · unfold cdf_y cdf_values
    exact div_scan_eval _ htot _
  · unfold cdf_values
    rw [List.chain'_map]
    refine List.Chain'.imp ?_ (running_totals_chain _ ?_ 0)
    · intro a b hab
      exact div_le_div_of_nonneg_right hab (le_of_lt hpos)
    · intro cc hc
      rcases List.mem_map.mp hc with ⟨p, hp, hpc⟩
      rw [← hpc]
      exact hnn p hp
  · unfold cdf_values
    rw [List.getLast?_map]
    have hne : counter.map Prod.snd ≠ [] := by
      intro hh
      rw [hh] at hpos
      simp at hpos
    rw [running_totals_getLast _ 0 hne, zero_add]
    simp only [Option.map]
    rw [div_self htot]

/-- C5 counterexample: the non-empty bucket input [(1, 0)] has total
frequency 0, so the code raises ZeroDivisionError instead of producing a
CDF ending at 1. -/
theorem c5_counterexample :
    cdf_y [((1 : ℚ), 0)] = Except.error PyErr.zeroDivisionError := by
  simp [cdf_y, div_scan, running_totals]

/-- C5 (amended): for a (value, count) pairing with non-negative counts of
positive total — which covers the raw-sample path, whose Counter-derived
counts are positive with total equal to the sample size — the empirical CDF
is the accumulated counts divided by the total, a non-decreasing sequence
whose final value is exactly 1.  (A non-empty bucket input with zero total
raises instead, see the counterexample.) -/
theorem c5_theorem :
    (∀ counter : List (ℚ × ℚ), (∀ p ∈ counter, 0 ≤ p.2) →
        0 < (counter.map Prod.snd).sum →
        cdf_y counter = Except.ok (cdf_values counter) ∧
        List.Chain' (fun a b : ℚ => a ≤ b) (cdf_values counter) ∧
        (cdf_values counter).getLast? = some 1) ∧
    (∀ xs : List ℚ, xs ≠ [] →
        cdf_y (sorted_counter xs) = Except.ok (cdf_values (sorted_counter xs)) ∧
        List.Chain' (fun a b : ℚ => a ≤ b) (cdf_values (sorted_counter xs)) ∧
        (cdf_values (sorted_counter xs)).getLast? = some 1) := by
  constructor
  · exact cdf_y_props
  · intro xs hxs
    apply cdf_y_props
    · intro p hp
      rcases List.mem_map.mp hp with ⟨v, _, hpv⟩
      rw [← hpv]
      positivity
    · have hmm : (sorted_counter xs).map Prod.snd =
          (List.insertionSort QLe xs.dedup).map (fun v => ((xs.count v : ℕ) : ℚ)) := by
        unfold sorted_counter
        rw [List.map_map]
        rfl
      rw [hmm]
      have hperm := (List.perm_insertionSort QLe xs.dedup).map
        (fun v => ((xs.count v : ℕ) : ℚ))
      rw [hperm.sum_eq]
      have hcast : xs.dedup.map (fun v => ((xs.count v : ℕ) : ℚ)) =
          (xs.dedup.map (fun v => xs.count v)).map (fun n : ℕ => (n : ℚ)) := by
        rw [List.map_map]
        rfl
      rw [hcast, ← Nat.cast_list_sum, List.sum_map_count_dedup_eq_length]
      have : 0 < xs.length := List.length_pos.mpr hxs
      exact_mod_cast this

/-- C5 witness: the amended statement evaluated on the buckets
[(1, 2), (3, 1)]. -/
theorem c5_theorem_witness :
    cdf_y [((1 : ℚ), 2), ((3 : ℚ), 1)] =
      Except.ok (cdf_values [((1 : ℚ), 2), ((3 : ℚ), 1)]) ∧
    List.Chain' (fun a b : ℚ => a ≤ b) (cdf_values [((1 : ℚ), 2), ((3 : ℚ), 1)]) ∧
    (cdf_values [((1 : ℚ), 2), ((3 : ℚ), 1)]).getLast? = some 1 :=
  c5_theorem.1 [((1 : ℚ), 2), ((3 : ℚ), 1)] (by decide)
    (by norm_num)

/-- C7: check_limits keeps an unparseable non-empty bound literal
unconverted, exactly as documented; but numeric range filtering is then not
"effectively disabled" — on a numeric series the first bound comparison of
a float x against the retained string raises TypeError and the run aborts,
unlike the genuinely unspecified (empty) bound on the same series, which
leaves the series untouched and fills the bounds from the data.  The code
contradicts its own comment ("if a limit is not number, we ignore the
limits altogether"), which is what the claim describes. -/
theorem c7_bound_parse :
    check_limit (PyVal.str ("abc")) = PyVal.str ("abc") ∧
    prepare_clip (Plot.mk GType.line false false [PyVal.num 1, PyVal.num 2]
        [PyVal.num 5, PyVal.num 6] (PyVal.str ("abc")) (PyVal.str (""))
        (PyVal.str ("")) (PyVal.str (""))) = Except.error PyErr.typeError ∧
    prepare_clip (Plot.mk GType.line false false [PyVal.num 1, PyVal.num 2]
        [PyVal.num 5, PyVal.num 6] (PyVal.str ("")) (PyVal.str (""))
        (PyVal.str ("")) (PyVal.str (""))) =
      Except.ok (Plot.mk GType.line false false [PyVal.num 1, PyVal.num 2]
        [PyVal.num 5, PyVal.num 6] (PyVal.num 1) (PyVal.num 2) (PyVal.num 5)
        (PyVal.num 6)) := by decide

/-- C8: on paired (value, frequency) input of equal lengths and positive
total frequency, the fitter's weighted mean is exactly the spec's
Σ(value·freq)/Σfreq and its weighted-variance radicand is exactly the
spec's population form Σ(freq·(value−mean)²)/Σfreq; the standard
deviation is the square root of this common radicand on both sides. -/
theorem c8_weighted_moments (xs ys : List ℚ) (hlen : xs.length = ys.length)
    (hpos : 0 < ys.sum) :
    buckets_avg xs ys = spec_weighted_mean (xs.zip ys) ∧
    buckets_var xs ys = spec_pop_var (xs.zip ys) := by
  have _hpos := hpos
  have hsnd : (xs.zip ys).map Prod.snd = ys :=
    List.map_snd_zip xs ys (le_of_eq hlen.symm)
  have havg : buckets_avg xs ys = spec_weighted_mean (xs.zip ys) := by
    unfold buckets_avg spec_weighted_mean
    rw [hsnd]
    congr 1
    exact congrArg List.sum
      (List.map_congr_left (fun (p : ℚ × ℚ) _ => mul_comm p.2 p.1))
  refine ⟨havg, ?_⟩
  unfold buckets_var spec_pop_var
  rw [hsnd, ← havg]

/-- C8 witness: the moment equalities evaluated on values [1, 2] with
frequencies [3, 4]. -/
theorem c8_weighted_moments_witness :
    buckets_avg [1, 2] [3, 4] = spec_weighted_mean ([(1 : ℚ), 2].zip [3, 4]) ∧
    buckets_var [1, 2] [3, 4] = spec_pop_var ([(1 : ℚ), 2].zip [3, 4]) :=
  c8_weighted_moments [1, 2] [3, 4] (by decide) (by norm_num)

/-- Destructuring a successful prepare_clip run into its source steps. -/
theorem prepare_clip_ok {p p2 : Plot} (h : prepare_clip p = Except.ok p2) :
    ∃ stL stR minX2 maxX2 yst,
      bound_lower p.minX (clip_xs p) = Except.ok stL ∧
      bound_upper p.maxX (clip_xs p) = Except.ok stR ∧
      convert_bound (p.isCatX || decide (p.graphType = GType.timeseries)) stL.2 =
        Except.ok minX2 ∧
      convert_bound (p.isCatX || decide (p.graphType = GType.timeseries)) stR.2 =
        Except.ok maxX2 ∧
      y_range p.isCatY (clip_sel p stL.1 stR.1).2 p.minY p.maxY = Except.ok yst ∧
      p2 = Plot.mk p.graphType p.isCatX p.isCatY (clip_sel p stL.1 stR.1).1 yst.1
        minX2 maxX2 yst.2.1 yst.2.2 := by
  unfold prepare_clip at h
  rcases exc_bind_ok.mp h with ⟨stL, h1, h⟩
  rcases exc_bind_ok.mp h with ⟨stR, h2, h⟩
  rcases exc_bind_ok.mp h with ⟨minX2, h3, h⟩
  rcases exc_bind_ok.mp h with ⟨maxX2, h4, h⟩
  rcases exc_bind_ok.mp h with ⟨yst, h5, h⟩
  simp only [pure, Except.pure, Except.ok.injEq] at h
  exact ⟨stL, stR, minX2, maxX2, yst, h1, h2, h3, h4, h5, h.symm⟩

/-- The x side of the final selection is the corresponding slice of the
scanned x list, on both branches. -/
theorem clip_sel_fst (p : Plot) (l r : ℕ) :
    (clip_sel p l r).1 = ((clip_xs p).drop l).take (r - l) := by
  unfold clip_sel clip_xs
  by_cases hb : sorts_by_x p = true
  · rw [if_pos hb, if_pos hb, List.map_take, List.map_drop]
  · rw [if_neg hb, if_neg hb]

/-- Both components of a selection have the same length when the incoming
series are paired. -/
theorem clip_sel_length (p : Plot) (l r : ℕ) (hlen : p.x.length = p.y.length) :
    (clip_sel p l r).1.length = (clip_sel p l r).2.length := by
  unfold clip_sel
  by_cases hb : sorts_by_x p = true
  · rw [if_pos hb]
    simp
  · rw [if_neg hb]
    simp [hlen]

/-- Every y value of a selection is one of the original y values. -/
theorem clip_sel_snd_mem (p : Plot) (l r : ℕ) :
    ∀ v ∈ (clip_sel p l r).2, v ∈ p.y := by
  unfold clip_sel
  by_cases hb : sorts_by_x p = true
  · rw [if_pos hb]
    intro v hv
    rcases List.mem_map.mp hv with ⟨pr, hpr, hpv⟩
    have hsub : ((pySortedPairs (p.x.zip p.y)).drop l).take (r - l) |>.Sublist
        (pySortedPairs (p.x.zip p.y)) :=
      (List.take_sublist _ _).trans (List.drop_sublist _ _)
    have hmem : pr ∈ pySortedPairs (p.x.zip p.y) := hsub.mem hpr
    have hmem2 : pr ∈ p.x.zip p.y := (pySortedPairs_perm _).mem_iff.mp hmem
    have := List.of_mem_zip (show (pr.1, pr.2) ∈ p.x.zip p.y from Prod.mk.eta ▸ hmem2)
    rw [← hpv]
    exact this.2
  · rw [if_neg hb]
    intro v hv
    exact ((List.take_sublist _ _).trans (List.drop_sublist _ _)).mem hv

/-- C2: range clipping preserves the pairing invariant |x| = |y| — the x
and y sides are cut from the same rows with the same cuts — and the y-bound
pass blanks out-of-range values to the nan gap sentinel in place instead of
removing them, so every surviving y entry is an original y value or the
sentinel and the lengths never diverge. -/
theorem c2_pairing (p p2 : Plot) (hlen : p.x.length = p.y.length)
    (hok : prepare_clip p = Except.ok p2) :
    p2.x.length = p2.y.length ∧ ∀ v ∈ p2.y, v = PyVal.nan ∨ v ∈ p.y := by
  rcases prepare_clip_ok hok with ⟨stL, stR, minX2, maxX2, yst, _, _, _, _, h5, heq⟩
  rcases y_range_ok h5 with ⟨hylen, hymem⟩
  subst heq
  constructor
  · simp only
    rw [hylen, clip_sel_length p stL.1 stR.1 hlen]
  · intro v hv
    rcases hymem v hv with h | h
    · exact Or.inl h
    · exact Or.inr (clip_sel_snd_mem p stL.1 stR.1 v h)

/-- C2 witness: the pairing statement evaluated on a numeric dataset where
one y value is blanked. -/
theorem c2_pairing_witness :
    (Plot.mk GType.line false false [PyVal.num 1, PyVal.num 2]
        [PyVal.nan, PyVal.num 5] (PyVal.num 1) (PyVal.num 2) (PyVal.num 1)
        (PyVal.num 10)).x.length =
      (Plot.mk GType.line false false [PyVal.num 1, PyVal.num 2]
        [PyVal.nan, PyVal.num 5] (PyVal.num 1) (PyVal.num 2) (PyVal.num 1)
        (PyVal.num 10)).y.length ∧
    ∀ v ∈ (Plot.mk GType.line false false [PyVal.num 1, PyVal.num 2]
        [PyVal.nan, PyVal.num 5] (PyVal.num 1) (PyVal.num 2) (PyVal.num 1)
        (PyVal.num 10)).y,
      v = PyVal.nan ∨ v ∈ [PyVal.num 5, PyVal.num 50, PyVal.num 6] :=
  c2_pairing
    (Plot.mk GType.line false false [PyVal.num 2, PyVal.num 1, PyVal.num 3]
      [PyVal.num 5, PyVal.num 50, PyVal.num 6] (PyVal.num 1) (PyVal.num 2)
      (PyVal.num 1) (PyVal.num 10)) _ (by decide) (by decide)

/-- C6 counterexample: a categorical-x bar dataset with a supplied
non-numeric min-x bound is bound-filtered by string comparison — the pair
("a", 1) is removed and the x length shrinks from 3 to 2, so categorical
range handling is not a pass-through when a bound is supplied. -/
theorem c6_counterexample :
    prepare_clip (Plot.mk GType.bar true false
        [PyVal.str ("a"), PyVal.str ("b"), PyVal.str ("c")]
        [PyVal.num 1, PyVal.num 2, PyVal.num 3]
        (PyVal.str ("b")) (PyVal.str ("")) (PyVal.str ("")) (PyVal.str (""))) =
      Except.ok (Plot.mk GType.bar true false
        [PyVal.str ("b"), PyVal.str ("c")] [PyVal.num 2, PyVal.num 3]
        (PyVal.str ("b")) (PyVal.str ("c")) (PyVal.num 2) (PyVal.num 3)) ∧
    [PyVal.str ("b"), PyVal.str ("c")].length ≠
      [PyVal.str ("a"), PyVal.str ("b"), PyVal.str ("c")].length := by decide

/-- C6 (amended): a categorical x-axis is never sorted, and when no truthy
min-x/max-x bound is supplied the series passes through with its x values
in original input order and original length.  (A supplied non-numeric bound
does filter the series by direct string comparison, and a supplied numeric
bound raises TypeError — see the counterexample.) -/
theorem c6_categorical_passthrough (p p2 : Plot) (hcat : p.isCatX = true)
    (hts : p.graphType ≠ GType.timeseries)
    (hmin : pyTruthy p.minX = false) (hmax : pyTruthy p.maxX = false)
    (hok : prepare_clip p = Except.ok p2) :
    p2.x = p.x := by
  rcases prepare_clip_ok hok with ⟨stL, stR, minX2, maxX2, yst, h1, h2, _, _, _, heq⟩
  have hsort : sorts_by_x p = false := by
    unfold sorts_by_x
    rw [hcat, decide_eq_false hts]
    rfl
  have hxs : clip_xs p = p.x := by
    unfold clip_xs
    rw [hsort]
    rfl
  unfold bound_lower at h1
  rw [hmin] at h1
  simp only [Bool.false_eq_true, if_false, hxs] at h1
  unfold bound_upper at h2
  rw [hmax] at h2
  simp only [Bool.false_eq_true, if_false, hxs] at h2
  subst heq
  simp only
  rw [clip_sel_fst, hxs]
  cases hx : p.x with
  | nil =>
    rw [hx] at h1
    cases h1
  | cons v xr =>
    rw [hx] at h1
    simp only [pure, Except.pure, Except.ok.injEq] at h1
    rcases hlast : (v :: xr).getLast? with _ | w
    · simp [List.getLast?] at hlast
    · rw [hx, hlast] at h2
      simp only [pure, Except.pure, Except.ok.injEq] at h2
      rw [← h1, ← h2]
      simp [hx]

/-- C6 witness: the pass-through statement evaluated on a two-key
categorical dataset with empty bounds. -/
theorem c6_categorical_passthrough_witness :
    (Plot.mk GType.bar true true [PyVal.str ("b"), PyVal.str ("a")]
        [PyVal.str ("u"), PyVal.str ("v")] (PyVal.str ("b")) (PyVal.str ("a"))
        (PyVal.str ("u")) (PyVal.str ("v"))).x =
      [PyVal.str ("b"), PyVal.str ("a")] :=
  c6_categorical_passthrough
    (Plot.mk GType.bar true true [PyVal.str ("b"), PyVal.str ("a")]
      [PyVal.str ("u"), PyVal.str ("v")] (PyVal.str ("")) (PyVal.str (""))
      (PyVal.str ("")) (PyVal.str (""))) _ (by decide) (by decide) (by decide)
    (by decide) (by decide)

/-- On the sorting branch, the scanned x list is a permutation of the
input x series and is sorted in the key order. -/
theorem clip_xs_sorted_branch (p : Plot) (hb : sorts_by_x p = true)
    (hlen : p.x.length = p.y.length) :
    (clip_xs p).Perm p.x ∧ List.Pairwise PvLe (clip_xs p) := by
  unfold clip_xs
  rw [if_pos hb]
  constructor
  · have hperm := (pySortedPairs_perm (p.x.zip p.y)).map Prod.fst
    rw [List.map_fst_zip p.x p.y (le_of_eq hlen)] at hperm
    exact hperm
  · exact List.pairwise_map.mpr (pySortedPairs_sorted (p.x.zip p.y))

/-- On an all-numeric list, the key order implies the Python <= result. -/
theorem pairwise_pvle_to_pyle {l : List PyVal}
    (hnum : ∀ v ∈ l, ∃ q : ℚ, v = PyVal.num q) (h : List.Pairwise PvLe l) :
    List.Pairwise (fun a b => pyLe a b = Except.ok true) l := by
  refine h.imp_of_mem ?_
  intro a b ha hb hab
  rcases hnum a ha with ⟨qa, rfl⟩
  rcases hnum b hb with ⟨qb, rfl⟩
  have hab2 : decide (qa ≤ qb) = true := hab
  simp only [pyLe]
  rw [hab2]

/-- C10 counterexample: with every x below the supplied min-x, the lower
cut does fall back to 0, but a supplied max-x below the data still cuts,
returning an empty series instead of the entire one. -/
theorem c10_counterexample :
    prepare_clip (Plot.mk GType.line false false [PyVal.num 6] [PyVal.num 7]
        (PyVal.num 10) (PyVal.num 5) (PyVal.num 3) (PyVal.num 9)) =
      Except.ok (Plot.mk GType.line false false [] [] (PyVal.num 10)
        (PyVal.num 5) (PyVal.num 3) (PyVal.num 9)) ∧
    ([] : List PyVal) ≠ [PyVal.num 6] := by decide

/-- C10 (amended): for a numeric or timeseries x-axis with a truthy numeric
min-x bound exceeding every x value and no truthy max-x bound, the lower
scan falls back to a cut of 0 and the clip returns the entire series,
ascending-sorted, rather than an empty series.  (If additionally a truthy
max-x bound cuts below some x values, part of the series is removed and the
result can even be empty — see the counterexample.) -/
theorem c10_all_below_min (p p2 : Plot) (hb : sorts_by_x p = true)
    (hlen : p.x.length = p.y.length)
    (hx : ∀ v ∈ p.x, ∃ q : ℚ, v = PyVal.num q)
    (htr : pyTruthy p.minX = true)
    (hmb : ∃ mb : ℚ, p.minX = PyVal.num mb ∧ ∀ v ∈ p.x, geB mb v = false)
    (hmax : pyTruthy p.maxX = false)
    (hok : prepare_clip p = Except.ok p2) :
    p2.x.Perm p.x ∧ List.Pairwise (fun a b => pyLe a b = Except.ok true) p2.x := by
  rcases prepare_clip_ok hok with ⟨stL, stR, minX2, maxX2, yst, h1, h2, _, _, _, heq⟩
  rcases hmb with ⟨mb, hmbe, hbelow⟩
  rcases clip_xs_sorted_branch p hb hlen with ⟨hperm, hsorted⟩
  have hxnum : ∀ v ∈ clip_xs p, ∃ q : ℚ, v = PyVal.num q :=
    fun v hv => hx v (hperm.mem_iff.mp hv)
  have hcmp : ∀ v ∈ clip_xs p, pyGe v p.minX = Except.ok (geB mb v) := by
    intro v hv
    rcases hxnum v hv with ⟨q, rfl⟩
    rw [hmbe]
    rfl
  have hany : (clip_xs p).any (geB mb) = false := by
    rw [Bool.eq_false_iff]
    intro hcon
    rcases List.any_eq_true.mp hcon with ⟨v, hv, hvp⟩
    rw [hbelow v (hperm.mem_iff.mp hv)] at hvp
    exact Bool.false_ne_true hvp
  have hscan : scan_lower p.minX (clip_xs p) 0 = Except.ok 0 := by
    rw [scan_lower_eval p.minX (geB mb) (clip_xs p) hcmp 0, hany]
    simp
  unfold bound_lower at h1
  rw [htr, if_pos rfl] at h1
  rcases exc_bind_ok.mp h1 with ⟨l, hl, hp1⟩
  rw [hscan] at hl
  cases hl
  simp only [pure, Except.pure, Except.ok.injEq] at hp1
  unfold bound_upper at h2
  rw [hmax] at h2
  simp only [Bool.false_eq_true, if_false] at h2
  rcases hlast : (clip_xs p).getLast? with _ | w
  · rw [hlast] at h2
    cases h2
  · rw [hlast] at h2
    simp only [pure, Except.pure, Except.ok.injEq] at h2
    subst heq
    simp only
    rw [clip_sel_fst, ← hp1, ← h2]
    simp only [List.drop_zero, Nat.sub_zero, List.take_length]
    exact ⟨hperm, pairwise_pvle_to_pyle hxnum hsorted⟩

/-- C10 witness: the amended statement evaluated on the series [3, 1] with
min-x 10 and no max-x. -/
theorem c10_all_below_min_witness :
    (Plot.mk GType.line false false [PyVal.num 1, PyVal.num 3]
        [PyVal.num 8, PyVal.num 7] (PyVal.num 10) (PyVal.num 3) (PyVal.num 7)
        (PyVal.num 8)).x.Perm [PyVal.num 3, PyVal.num 1] ∧
    List.Pairwise (fun a b => pyLe a b = Except.ok true)
      (Plot.mk GType.line false false [PyVal.num 1, PyVal.num 3]
        [PyVal.num 8, PyVal.num 7] (PyVal.num 10) (PyVal.num 3) (PyVal.num 7)
        (PyVal.num 8)).x :=
  c10_all_below_min
    (Plot.mk GType.line false false [PyVal.num 3, PyVal.num 1]
      [PyVal.num 7, PyVal.num 8] (PyVal.num 10) (PyVal.str ("")) (PyVal.str (""))
      (PyVal.str (""))) _ (by decide) (by decide)
    (by
      intro v hv
      rcases List.mem_cons.mp hv with h | h
      · exact ⟨3, h⟩
      · rcases List.mem_cons.mp h with h2 | h2
        · exact ⟨1, h2⟩
        · simp at h2)
    (by decide) ⟨10, by decide, by decide⟩ (by decide) (by decide)

/-- Membership in the inner first-appearance accumulation. -/
theorem fsu_inner_mem : ∀ (xs acc : List String) (s : String),
    (s ∈ xs.foldl (fun acc2 x => if x ∈ acc2 then acc2 else acc2 ++ [x]) acc) ↔
      s ∈ acc ∨ s ∈ xs := by
  intro xs
  induction xs with
  | nil => intro acc s; simp
  | cons x r ih =>
    intro acc s
    simp only [List.foldl_cons]
    rw [ih]
    have hstep : s ∈ (if x ∈ acc then acc else acc ++ [x]) ↔ s ∈ acc ∨ s = x := by
      split_ifs with hx
      · constructor
        · exact fun h => Or.inl h
        · rintro (h | h)
          · exact h
          · exact h ▸ hx
      · simp [List.mem_append]
    rw [hstep, List.mem_cons]
    tauto

/-- The inner first-appearance accumulation preserves distinctness. -/
theorem fsu_inner_nodup : ∀ (xs acc : List String), acc.Nodup →
    (xs.foldl (fun acc2 x => if x ∈ acc2 then acc2 else acc2 ++ [x]) acc).Nodup := by
  intro xs
  induction xs with
  | nil => intro acc h; exact h
  | cons x r ih =>
    intro acc h
    simp only [List.foldl_cons]
    apply ih
    split_ifs with hx
    · exact h
    · simp [List.nodup_append, h, hx]

/-- A key is in the first-appearance union exactly when some dataset has
it. -/
theorem first_seen_union_mem (plots : List (List String)) (s : String) :
    s ∈ first_seen_union plots ↔ ∃ xs ∈ plots, s ∈ xs := by
  unfold first_seen_union
  suffices h : ∀ acc : List String,
      (s ∈ plots.foldl (fun acc xs =>
          xs.foldl (fun acc2 x => if x ∈ acc2 then acc2 else acc2 ++ [x]) acc) acc ↔
        s ∈ acc ∨ ∃ xs ∈ plots, s ∈ xs) by
    rw [h []]
    simp
  induction plots with
  | nil => intro acc; simp
  | cons xs rest ih =>
    intro acc
    simp only [List.foldl_cons]
    rw [ih, fsu_inner_mem]
    constructor
    · rintro ((h | h) | h)
      · exact Or.inl h
      · exact Or.inr ⟨xs, List.mem_cons_self xs rest, h⟩
      · rcases h with ⟨ys, hys, hsy⟩
        exact Or.inr ⟨ys, List.mem_cons_of_mem xs hys, hsy⟩
    · rintro (h | ⟨ys, hys, hsy⟩)
      · exact Or.inl (Or.inl h)
      · rcases List.mem_cons.mp hys with h2 | h2
        · exact Or.inl (Or.inr (h2 ▸ hsy))
        · exact Or.inr ⟨ys, h2, hsy⟩

/-- The first-appearance union has no duplicate keys. -/
theorem first_seen_union_nodup (plots : List (List String)) :
    (first_seen_union plots).Nodup := by
  unfold first_seen_union
  suffices h : ∀ acc : List String, acc.Nodup →
      (plots.foldl (fun acc xs =>
        xs.foldl (fun acc2 x => if x ∈ acc2 then acc2 else acc2 ++ [x]) acc) acc).Nodup by
    exact h [] (by simp)
  induction plots with
  | nil => intro acc h; exact h
  | cons xs rest ih =>
    intro acc h
    simp only [List.foldl_cons]
    exact ih _ (fsu_inner_nodup xs acc h)

/-- The move-to-front hack never changes a sequence's length. -/
theorem move_gap_front_length (f : Bool) (l : List PyVal) :
    ((move_gap_front f l).1).length = l.length := by
  unfold move_gap_front
  split_ifs with h
  · have hmem : PyVal.str ("") ∈ l := by
      have h2 := h
      rw [Bool.and_eq_true] at h2
      exact of_decide_eq_true h2.2
    simp only [List.length_cons]
    rw [List.length_erase_of_mem hmem]
    have : 1 ≤ l.length := List.length_pos.mpr (List.ne_nil_of_mem hmem)
    omega
  · rfl

/-- On an all-numeric-y group the hack never fires and the per-dataset loop
is a plain map of the realignment. -/
theorem group_align_fold_numeric (mx : List String) :
    ∀ (pls : List CatPlot) (acc : List (List PyVal)) (f : Bool),
    (∀ pl ∈ pls, pl.isCatY = false) →
    (pls.foldl (fun st p =>
      let y0 := align_y p.isCatY mx p.x p.y
      if p.isCatY then
        let pr := move_gap_front st.2 y0
        (st.1 ++ [pr.1], pr.2)
      else (st.1 ++ [y0], st.2)) (acc, f)) =
      (acc ++ pls.map (fun pl => align_y false mx pl.x pl.y), f) := by
  intro pls
  induction pls with
  | nil => intro acc f _; simp
  | cons p rest ih =>
    intro acc f h
    have hp : p.isCatY = false := h p (List.mem_cons_self p rest)
    simp only [List.foldl_cons, List.map_cons, hp, Bool.false_eq_true, if_false]
    rw [ih _ _ (fun q hq => h q (List.mem_cons_of_mem p hq))]
    rw [List.append_assoc, List.singleton_append]

/-- Every sequence the per-dataset loop emits has the domain's length,
whether or not the hack fires. -/
theorem group_align_fold_length (mx : List String) :
    ∀ (pls : List CatPlot) (acc : List (List PyVal)) (f : Bool),
    (∀ l ∈ acc, l.length = mx.length) →
    ∀ l ∈ (pls.foldl (fun st p =>
      let y0 := align_y p.isCatY mx p.x p.y
      if p.isCatY then
        let pr := move_gap_front st.2 y0
        (st.1 ++ [pr.1], pr.2)
      else (st.1 ++ [y0], st.2)) (acc, f)).1, l.length = mx.length := by
  intro pls
  induction pls with
  | nil => intro acc f hacc; exact hacc
  | cons p rest ih =>
    intro acc f hacc
    simp only [List.foldl_cons]
    by_cases hp : p.isCatY = true
    · rw [hp]
      simp only [if_true]
      apply ih
      intro l hl
      rcases List.mem_append.mp hl with h | h
      · exact hacc l h
      · simp only [List.mem_singleton] at h
        rw [h, move_gap_front_length]
        simp [align_y]
    · rw [if_neg hp]
      apply ih
      intro l hl
      rcases List.mem_append.mp hl with h | h
      · exact hacc l h
      · simp only [List.mem_singleton] at h
        rw [h]
        simp [align_y]

/-- The realignment at the position of a domain key: the dataset's own y
value at a key it contains, the gap sentinel at a key it lacks. -/
theorem align_y_at_key (catY : Bool) (mx px : List String) (py : List PyVal)
    (s : String) (hs : s ∈ mx) :
    (align_y catY mx px py).getD (mx.indexOf s) PyVal.none =
      if s ∈ px then py.getD (px.indexOf s) PyVal.none else gap_sentinel catY := by
  unfold align_y
  have hidx : mx.indexOf s < mx.length := List.indexOf_lt_length.mpr hs
  rw [List.getD_eq_getElem?_getD, List.getElem?_map,
    List.getElem?_eq_getElem hidx]
  simp only [Option.map_some', Option.getD_some]
  rw [List.getElem_indexOf hidx]

/-- C9 counterexample: for categorical-y datasets with keys a,c and b,c,
the first dataset's realigned sequence has its first gap sentinel moved to
the front by the presentation hack, so it no longer holds the dataset's
own y value at the key "a" — the claim's per-key alignment fails. -/
theorem c9_counterexample :
    group_align
        [CatPlot.mk true ["a", "c"] [PyVal.str ("1"), PyVal.str ("3")],
         CatPlot.mk true ["b", "c"] [PyVal.str ("2"), PyVal.str ("4")]] =
      [[PyVal.str (""), PyVal.str ("1"), PyVal.str ("3")],
       [PyVal.str (""), PyVal.str ("2"), PyVal.str ("4")]] ∧
    merged_categories [["a", "c"], ["b", "c"]] = ["a", "b", "c"] ∧
    [PyVal.str (""), PyVal.str ("1"), PyVal.str ("3")] ≠
      [PyVal.str ("1"), PyVal.str (""), PyVal.str ("3")] := by decide

/-- C9 (amended): the shared domain is the lexicographically sorted,
duplicate-free union of the datasets' keys, every realigned sequence has
the domain's length, and for a numeric-y group the loop is exactly the
realignment map, holding each dataset's own y value at the position of
every key it contains and the nan gap sentinel at every key it lacks; in
particular merging the key sets a,c and b,c yields the domain a,b,c.  (For
a categorical-y dataset the first gap sentinel of the first gapped dataset
is moved to the front, shifting its values off their keys — see the
counterexample.) -/
theorem c9_theorem (plots : List CatPlot)
    (hnum : ∀ pl ∈ plots, pl.isCatY = false) :
    (List.Pairwise StrLe (merged_categories (plots.map CatPlot.x)) ∧
     (merged_categories (plots.map CatPlot.x)).Nodup ∧
     ∀ s : String, s ∈ merged_categories (plots.map CatPlot.x) ↔
       ∃ pl ∈ plots, s ∈ pl.x) ∧
    group_align plots =
      plots.map (fun pl =>
        align_y false (merged_categories (plots.map CatPlot.x)) pl.x pl.y) ∧
    (∀ l ∈ group_align plots,
      l.length = (merged_categories (plots.map CatPlot.x)).length) ∧
    (∀ pl ∈ plots, ∀ s ∈ merged_categories (plots.map CatPlot.x),
      (align_y false (merged_categories (plots.map CatPlot.x)) pl.x pl.y).getD
          ((merged_categories (plots.map CatPlot.x)).indexOf s) PyVal.none =
        if s ∈ pl.x then pl.y.getD (pl.x.indexOf s) PyVal.none
        else PyVal.nan) ∧
    merged_categories [["a", "c"], ["b", "c"]] = ["a", "b", "c"] := by
  refine ⟨⟨merged_categories_sorted _, ?_, ?_⟩, ?_, ?_, ?_, by decide⟩
  · exact ((merged_categories_perm _).nodup_iff).mpr (first_seen_union_nodup _)
  · intro s
    rw [(merged_categories_perm _).mem_iff, first_seen_union_mem]
    constructor
    · rintro ⟨xs, hxs, hsx⟩
      rcases List.mem_map.mp hxs with ⟨pl, hpl, hplx⟩
      exact ⟨pl, hpl, hplx ▸ hsx⟩
    · rintro ⟨pl, hpl, hsx⟩
      exact ⟨pl.x, List.mem_map.mpr ⟨pl, hpl, rfl⟩, hsx⟩
  · have hg : group_align plots =
        (plots.foldl (fun st p =>
          let y0 := align_y p.isCatY (merged_categories (plots.map CatPlot.x)) p.x p.y
          if p.isCatY then
            let pr := move_gap_front st.2 y0
            (st.1 ++ [pr.1], pr.2)
          else (st.1 ++ [y0], st.2)) ([], false)).1 := rfl
    rw [hg, group_align_fold_numeric _ plots [] false hnum]
    simp
  · intro l hl
    have hg : group_align plots =
        (plots.foldl (fun st p =>
          let y0 := align_y p.isCatY (merged_categories (plots.map CatPlot.x)) p.x p.y
          if p.isCatY then
            let pr := move_gap_front st.2 y0
            (st.1 ++ [pr.1], pr.2)
          else (st.1 ++ [y0], st.2)) ([], false)).1 := rfl
    rw [hg] at hl
    exact group_align_fold_length _ plots [] false (by simp) l hl
  · intro pl _ s hs
    rw [align_y_at_key false _ pl.x pl.y s hs]
    rfl

/-- C9 witness: the amended statement evaluated on the numeric-y group
with key sets a,c and b,c. -/
theorem c9_theorem_witness :
    group_align
        [CatPlot.mk false ["a", "c"] [PyVal.num 1, PyVal.num 3],
         CatPlot.mk false ["b", "c"] [PyVal.num 2, PyVal.num 4]] =
      [CatPlot.mk false ["a", "c"] [PyVal.num 1, PyVal.num 3],
       CatPlot.mk false ["b", "c"] [PyVal.num 2, PyVal.num 4]].map
        (fun pl =>
          align_y false
            (merged_categories
              ([CatPlot.mk false ["a", "c"] [PyVal.num 1, PyVal.num 3],
                CatPlot.mk false ["b", "c"] [PyVal.num 2, PyVal.num 4]].map
                CatPlot.x)) pl.x pl.y) ∧
    merged_categories [["a", "c"], ["b", "c"]] = ["a", "b", "c"] := by
  have h := c9_theorem
    [CatPlot.mk false ["a", "c"] [PyVal.num 1, PyVal.num 3],
     CatPlot.mk false ["b", "c"] [PyVal.num 2, PyVal.num 4]] (by decide)
  exact ⟨h.2.1, h.2.2.2.2⟩

/-- C4 counterexample: a degenerate standard deviation of 0 (buckets with
a single repeated value) is raised by the normal-curve normalization, which
is not inside any try/except: the whole statistics job for that dataset
aborts with ZeroDivisionError and none of the other curves are produced,
contrary to the claim that only the failing curve is skipped. -/
theorem c4_counterexample :
    stat_plot (fun _ _ => Except.ok 0) (StatData.mk true [5] [3] [] []) =
      Except.error PyErr.zeroDivisionError := by
  norm_num [stat_plot, moments, buckets_avg, buckets_var, nonzero_div,
    List.zip, List.zipWith, List.sum_cons, List.sum_nil, Bind.bind, Except.bind,
    pure, Except.pure]

/-- C4 (amended): the only guarded computation is the Poisson-quantile
block, whose failure affects nothing else — the job's outcome and every
other field are identical under any two ppf oracles, failing or not — and
the per-dataset jobs are isolated, each dataset's result depending only on
its own data; any other domain error (degenerate stddev for the normal
curve, log of a non-positive mean for the Poisson curve) aborts that
dataset's whole job, other datasets proceeding unaffected. -/
theorem c4_theorem :
    (∀ (p1 p2 : ℚ → ℚ → Except PyErr ℚ) (d : StatData),
        Except.map scrub_quantiles (stat_plot p1 d) =
          Except.map scrub_quantiles (stat_plot p2 d)) ∧
    (∀ (ppf : ℚ → ℚ → Except PyErr ℚ) (ds : List StatData) (i : ℕ),
        (stat_all ppf ds)[i]? = (ds[i]?).map (stat_plot ppf)) := by
  constructor
  · intro p1 p2 d
    unfold stat_plot
    cases hm : moments d with
    | error e => simp [Bind.bind, Except.bind, Except.map]
    | ok st =>
      simp only [Bind.bind, Except.bind]
      cases h1 : nonzero_div st.2 with
      | error e => simp [Except.map]
      | ok u =>
        cases h2 : (if d.isBuckets then d.xs
            else d.binEdges.map (fun x => ((ratTrunc x : ℤ) : ℚ))).mapM
            (poisson_point st.1) with
        | error e => simp [Except.map]
        | ok pc =>
          cases h3 : nonzero_div st.1 with
          | error e => simp [Except.map]
          | ok u2 =>
            cases h4 : fmean (if d.isBuckets then d.ys else d.binCounts) with
            | error e => simp [Except.map]
            | ok ul =>
              cases h5 : quantiles4 false
                  (if d.isBuckets then original_X (d.xs.zip d.ys) else d.xs) with
              | error e => simp [Except.map]
              | ok qt =>
                cases h6 : quantiles4 true
                    (if d.isBuckets then original_X (d.xs.zip d.ys) else d.xs) with
                | error e => simp [Except.map]
                | ok qi =>
                  cases h7 : cdf_y
                      (if d.isBuckets then d.xs.zip d.ys
                       else sorted_counter d.xs) with
                  | error e => simp [Except.map]
                  | ok cdf =>
                    simp [Except.map, scrub_quantiles, pure, Except.pure]
  · intro ppf ds i
    simp [stat_all]

/-- Membership in a [l, r) slice, phrased by absolute index. -/
theorem mem_slice_iff (xs : List PyVal) (l r : ℕ) (v : PyVal) :
    v ∈ (xs.drop l).take (r - l) ↔
      ∃ i, l ≤ i ∧ i < r ∧ ∃ h : i < xs.length, xs[i] = v := by
  constructor
  · intro hv
    rcases List.mem_iff_getElem.mp hv with ⟨k, hk, hkv⟩
    have hk2 := hk
    simp only [List.length_take, List.length_drop, lt_min_iff] at hk2
    refine ⟨l + k, Nat.le_add_right l k, by omega, by omega, ?_⟩
    rw [List.getElem_take, List.getElem_drop] at hkv
    exact hkv
  · rintro ⟨i, hl, hr, hi, hv⟩
    apply List.mem_iff_getElem.mpr
    have hk : i - l < ((xs.drop l).take (r - l)).length := by
      simp only [List.length_take, List.length_drop, lt_min_iff]
      omega
    refine ⟨i - l, hk, ?_⟩
    rw [List.getElem_take, List.getElem_drop]
    simp only [Nat.add_sub_cancel' hl]
    exact hv

/-- In a key-sorted, all-numeric list, being at least a bound propagates to
later positions. -/
theorem geB_mono (mb : ℚ) {xs : List PyVal}
    (hnum : ∀ v ∈ xs, ∃ q : ℚ, v = PyVal.num q)
    (hs : List.Pairwise PvLe xs) {i j : ℕ} (hi : i < xs.length)
    (hj : j < xs.length) (hij : i ≤ j) (h : geB mb xs[i] = true) :
    geB mb xs[j] = true := by
  rcases Nat.lt_or_ge i j with hlt | hge
  · have hrel := List.pairwise_iff_get.mp hs ⟨i, hi⟩ ⟨j, hj⟩ hlt
    rcases hnum xs[i] (List.getElem_mem hi) with ⟨qi, hqi⟩
    rcases hnum xs[j] (List.getElem_mem hj) with ⟨qj, hqj⟩
    rw [List.get_eq_getElem, List.get_eq_getElem, hqi, hqj] at hrel
    have hle : qi ≤ qj := of_decide_eq_true hrel
    rw [hqi] at h
    rw [hqj]
    have hmb : mb ≤ qi := of_decide_eq_true h
    exact decide_eq_true (le_trans hmb hle)
  · have hij2 : i = j := le_antisymm hij hge
    subst hij2
    exact h

/-- In a key-sorted, all-numeric list, exceeding a bound propagates to
later positions. -/
theorem gtB_mono (mb : ℚ) {xs : List PyVal}
    (hnum : ∀ v ∈ xs, ∃ q : ℚ, v = PyVal.num q)
    (hs : List.Pairwise PvLe xs) {i j : ℕ} (hi : i < xs.length)
    (hj : j < xs.length) (hij : i ≤ j) (h : gtB mb xs[i] = true) :
    gtB mb xs[j] = true := by
  rcases Nat.lt_or_ge i j with hlt | hge
  · have hrel := List.pairwise_iff_get.mp hs ⟨i, hi⟩ ⟨j, hj⟩ hlt
    rcases hnum xs[i] (List.getElem_mem hi) with ⟨qi, hqi⟩
    rcases hnum xs[j] (List.getElem_mem hj) with ⟨qj, hqj⟩
    rw [List.get_eq_getElem, List.get_eq_getElem, hqi, hqj] at hrel
    have hle : qi ≤ qj := of_decide_eq_true hrel
    rw [hqi] at h
    rw [hqj]
    have hmb : mb < qi := of_decide_eq_true h
    exact decide_eq_true (lt_of_lt_of_le hmb hle)
  · have hij2 : i = j := le_antisymm hij hge
    subst hij2
    exact h

/-- float() re-conversion leaves a numeric bound unchanged. -/
theorem convert_bound_num (skip : Bool) (q : ℚ) :
    convert_bound skip (PyVal.num q) = Except.ok (PyVal.num q) := by
  unfold convert_bound
  split_ifs with h
  · rfl
  · rfl

/-- Characterization of the lower-bound step on a truthy numeric bound over
an all-numeric list: the for-scan result. -/
theorem bound_lower_ok_truthy {bx : PyVal} {xs : List PyVal} {stL : ℕ × PyVal}
    (mb : ℚ) (hbx : bx = PyVal.num mb) (ht : pyTruthy bx = true)
    (hnum : ∀ v ∈ xs, ∃ q : ℚ, v = PyVal.num q)
    (h : bound_lower bx xs = Except.ok stL) :
    stL.2 = PyVal.num mb ∧
    stL.1 = (if xs.any (geB mb) then xs.findIdx (geB mb) else 0) := by
  unfold bound_lower at h
  rw [ht, if_pos rfl] at h
  rcases exc_bind_ok.mp h with ⟨l, hl, hp⟩
  have hcmp : ∀ v ∈ xs, pyGe v bx = Except.ok (geB mb v) := by
    intro v hv
    rcases hnum v hv with ⟨q, rfl⟩
    rw [hbx]
    rfl
  rw [scan_lower_eval bx (geB mb) xs hcmp 0] at hl
  simp only [Nat.zero_add] at hl
  cases hl
  simp only [pure, Except.pure, Except.ok.injEq] at hp
  rw [← hp]
  exact ⟨hbx, rfl⟩

/-- Characterization of the lower-bound step on a falsy bound. -/
theorem bound_lower_ok_falsy {bx : PyVal} {xs : List PyVal} {stL : ℕ × PyVal}
    (ht : pyTruthy bx = false) (h : bound_lower bx xs = Except.ok stL) :
    stL.1 = 0 ∧ ∃ h0 : 0 < xs.length, stL.2 = xs[0] := by
  unfold bound_lower at h
  rw [ht] at h
  simp only [Bool.false_eq_true, if_false] at h
  cases hxs : xs with
  | nil =>
    rw [hxs] at h
    cases h
  | cons v xr =>
    rw [hxs] at h
    simp only [pure, Except.pure, Except.ok.injEq] at h
    rw [← h]
    exact ⟨rfl, by simp, rfl⟩

/-- Characterization of the upper-bound step on a truthy numeric bound over
an all-numeric list: the for-scan result. -/
theorem bound_upper_ok_truthy {bx : PyVal} {xs : List PyVal} {stR : ℕ × PyVal}
    (mb : ℚ) (hbx : bx = PyVal.num mb) (ht : pyTruthy bx = true)
    (hnum : ∀ v ∈ xs, ∃ q : ℚ, v = PyVal.num q)
    (h : bound_upper bx xs = Except.ok stR) :
    stR.2 = PyVal.num mb ∧
    stR.1 = (if xs.any (gtB mb) then xs.findIdx (gtB mb) else xs.length) := by
  unfold bound_upper at h
  rw [ht, if_pos rfl] at h
  rcases exc_bind_ok.mp h with ⟨r, hr, hp⟩
  have hcmp : ∀ v ∈ xs, pyGt v bx = Except.ok (gtB mb v) := by
    intro v hv
    rcases hnum v hv with ⟨q, rfl⟩
    rw [hbx]
    rfl
  rw [scan_upper_eval bx (gtB mb) xs hcmp 0] at hr
  simp only [Nat.zero_add] at hr
  cases hr
  simp only [pure, Except.pure, Except.ok.injEq] at hp
  rw [← hp]
  exact ⟨hbx, rfl⟩

/-- Characterization of the upper-bound step on a falsy bound. -/
theorem bound_upper_ok_falsy {bx : PyVal} {xs : List PyVal} {stR : ℕ × PyVal}
    (ht : pyTruthy bx = false) (h : bound_upper bx xs = Except.ok stR) :
    stR.1 = xs.length ∧
    ∃ h0 : xs.length - 1 < xs.length, stR.2 = xs[xs.length - 1] := by
  unfold bound_upper at h
  rw [ht] at h
  simp only [Bool.false_eq_true, if_false] at h
  rcases hlast : xs.getLast? with _ | w
  · rw [hlast] at h
    cases h
  · rw [hlast] at h
    simp only [pure, Except.pure, Except.ok.injEq] at h
    rw [List.getLast?_eq_getElem?] at hlast
    rcases List.getElem?_eq_some.mp hlast with ⟨h0, hval⟩
    rw [← h]
    exact ⟨rfl, h0, hval.symm⟩

/-- The Python >= comparison of a number against a numeric bound computes
the geB predicate. -/
theorem pyGe_num_geB (q mb : ℚ) :
    pyGe (PyVal.num q) (PyVal.num mb) = Except.ok (geB mb (PyVal.num q)) := rfl

/-- The Python <= comparison of a number against a numeric bound computes
the negation of the gtB predicate. -/
theorem pyLe_num_gtB (q mb : ℚ) :
    pyLe (PyVal.num q) (PyVal.num mb) = Except.ok (!gtB mb (PyVal.num q)) := by
  simp only [pyLe, gtB]
  congr 1
  rw [← decide_not]
  exact decide_eq_decide.mpr not_lt.symm

/-- C1 counterexample: on the histogram branch the upper cut is not the
first index with x > max-x but the largest index with x <= max-x, and the
slice excludes that index, so the in-range maximum 2 is dropped from the
series [1, 2] clipped to max-x = 2. -/
theorem c1_counterexample :
    clip_histogram [PyVal.num 1, PyVal.num 2] (PyVal.str ("")) (PyVal.num 2) =
      Except.ok ([PyVal.num 1], PyVal.num 1, PyVal.num 2) ∧
    pyGe (PyVal.num 2) (PyVal.num 1) = Except.ok true ∧
    pyLe (PyVal.num 2) (PyVal.num 2) = Except.ok true ∧
    PyVal.num 2 ∉ [PyVal.num 1] := by decide

/-- C1 (amended, non-histogram branch): for a numeric or timeseries x-axis
with all-numeric x values, where a truthy min-x is a number matched by at
least one element (otherwise the for-else fallback of 0 keeps out-of-range
data, see C10) and a truthy max-x is a number, a successful clip yields an
ascending x-sequence every element of which lies within the final [min-x,
max-x] bounds, and every original x value within those bounds is
retained. -/
theorem c1_theorem (p p2 : Plot) (hb : sorts_by_x p = true)
    (hlen : p.x.length = p.y.length)
    (hx : ∀ v ∈ p.x, ∃ q : ℚ, v = PyVal.num q)
    (hmin : pyTruthy p.minX = true →
      ∃ mb : ℚ, p.minX = PyVal.num mb ∧ ∃ v ∈ p.x, geB mb v = true)
    (hmax : pyTruthy p.maxX = true → ∃ MB : ℚ, p.maxX = PyVal.num MB)
    (hok : prepare_clip p = Except.ok p2) :
    List.Pairwise (fun a b => pyLe a b = Except.ok true) p2.x ∧
    (∀ v ∈ p2.x, pyGe v p2.minX = Except.ok true ∧
      pyLe v p2.maxX = Except.ok true) ∧
    (∀ v ∈ p.x, pyGe v p2.minX = Except.ok true →
      pyLe v p2.maxX = Except.ok true → v ∈ p2.x) := by
  rcases prepare_clip_ok hok with ⟨stL, stR, minX2, maxX2, yst, h1, h2, h3, h4, _, heq⟩
  rcases clip_xs_sorted_branch p hb hlen with ⟨hperm, hsorted⟩
  have hnumxs : ∀ v ∈ clip_xs p, ∃ q : ℚ, v = PyVal.num q :=
    fun v hv => hx v (hperm.mem_iff.mp hv)
  have hp2x : p2.x = ((clip_xs p).drop stL.1).take (stR.1 - stL.1) := by
    rw [heq]
    exact clip_sel_fst p stL.1 stR.1
  have hp2min : p2.minX = minX2 := by rw [heq]
  have hp2max : p2.maxX = maxX2 := by rw [heq]
  obtain ⟨mbv, hmb2, Hlb, Hlb2⟩ :
      ∃ mbv : ℚ, minX2 = PyVal.num mbv ∧
        (∀ (i : ℕ) (hi : i < (clip_xs p).length), stL.1 ≤ i →
          geB mbv ((clip_xs p)[i]) = true) ∧
        (∀ (i : ℕ) (hi : i < (clip_xs p).length),
          geB mbv ((clip_xs p)[i]) = true → stL.1 ≤ i) := by
    by_cases ht : pyTruthy p.minX = true
    · rcases hmin ht with ⟨mb, hmbx, w, hw, hwge⟩
      rcases bound_lower_ok_truthy mb hmbx ht hnumxs h1 with ⟨hsnd, hfst⟩
      have hany : (clip_xs p).any (geB mb) = true :=
        List.any_eq_true.mpr ⟨w, hperm.mem_iff.mpr hw, hwge⟩
      rw [hany, if_pos rfl] at hfst
      have hflt : (clip_xs p).findIdx (geB mb) < (clip_xs p).length :=
        List.findIdx_lt_length_of_exists (List.any_eq_true.mp hany)
      refine ⟨mb, ?_, ?_, ?_⟩
      · rw [hsnd, convert_bound_num] at h3
        injection h3 with h3
        exact h3.symm
      · intro i hi hile
        rw [hfst] at hile
        exact geB_mono mb hnumxs hsorted hflt hi hile
          (@List.findIdx_getElem _ (geB mb) (clip_xs p) hflt)
      · intro i hi hgei
        rw [hfst]
        by_contra hn
        push_neg at hn
        have hfalse := List.not_of_lt_findIdx hn
        rw [hgei] at hfalse
        exact Bool.false_ne_true hfalse.symm
    · have ht2 : pyTruthy p.minX = false := Bool.eq_false_iff.mpr ht
      rcases bound_lower_ok_falsy ht2 h1 with ⟨hfst, h0, hsnd⟩
      rcases hnumxs _ (List.getElem_mem h0) with ⟨q0, hq0⟩
      refine ⟨q0, ?_, ?_, ?_⟩
      · rw [hsnd, hq0, convert_bound_num] at h3
        injection h3 with h3
        exact h3.symm
      · intro i hi _
        have h00 : geB q0 ((clip_xs p)[0]) = true := by
          rw [hq0]
          exact decide_eq_true le_rfl
        exact geB_mono q0 hnumxs hsorted h0 hi (Nat.zero_le i) h00
      · intro i hi _
        rw [hfst]
        exact Nat.zero_le i
  obtain ⟨MBv, hMB2, Hub, Hub2⟩ :
      ∃ MBv : ℚ, maxX2 = PyVal.num MBv ∧
        (∀ (i : ℕ) (hi : i < (clip_xs p).length), i < stR.1 →
          gtB MBv ((clip_xs p)[i]) = false) ∧
        (∀ (i : ℕ) (hi : i < (clip_xs p).length),
          gtB MBv ((clip_xs p)[i]) = false → i < stR.1) := by
    by_cases ht : pyTruthy p.maxX = true
    · rcases hmax ht with ⟨MB, hMBx⟩
      rcases bound_upper_ok_truthy MB hMBx ht hnumxs h2 with ⟨hsnd, hfst⟩
      have hMBconv : maxX2 = PyVal.num MB := by
        rw [hsnd, convert_bound_num] at h4
        injection h4 with h4
        exact h4.symm
      by_cases hany : (clip_xs p).any (gtB MB) = true
      · rw [hany, if_pos rfl] at hfst
        have hflt : (clip_xs p).findIdx (gtB MB) < (clip_xs p).length :=
          List.findIdx_lt_length_of_exists (List.any_eq_true.mp hany)
        refine ⟨MB, hMBconv, ?_, ?_⟩
        · intro i hi hilt
          rw [hfst] at hilt
          exact List.not_of_lt_findIdx hilt
        · intro i hi hgti
          rw [hfst]
          by_contra hn
          push_neg at hn
          have htrue := gtB_mono MB hnumxs hsorted hflt hi hn
            (@List.findIdx_getElem _ (gtB MB) (clip_xs p) hflt)
          rw [hgti] at htrue
          exact Bool.false_ne_true htrue
      · have hany2 : (clip_xs p).any (gtB MB) = false := Bool.eq_false_iff.mpr hany
        rw [hany2] at hfst
        simp only [Bool.false_eq_true, if_false] at hfst
        refine ⟨MB, hMBconv, ?_, ?_⟩
        · intro i hi _
          rw [List.any_eq_false] at hany2
          exact Bool.eq_false_iff.mpr (hany2 _ (List.getElem_mem hi))
        · intro i hi _
          rw [hfst]
          exact hi
    · have ht2 : pyTruthy p.maxX = false := Bool.eq_false_iff.mpr ht
      rcases bound_upper_ok_falsy ht2 h2 with ⟨hfst, hL, hsnd⟩
      rcases hnumxs _ (List.getElem_mem hL) with ⟨qL, hqL⟩
      refine ⟨qL, ?_, ?_, ?_⟩
      · rw [hsnd, hqL, convert_bound_num] at h4
        injection h4 with h4
        exact h4.symm
      · intro i hi _
        by_contra hgt
        rw [Bool.not_eq_false] at hgt
        have hlast := gtB_mono qL hnumxs hsorted hi hL (by omega) hgt
        rw [hqL] at hlast
        have : qL < qL := of_decide_eq_true hlast
        exact absurd this (lt_irrefl qL)
      · intro i hi _
        rw [hfst]
        exact hi
  refine ⟨?_, ?_, ?_⟩
  · rw [hp2x]
    have hsub : (((clip_xs p).drop stL.1).take (stR.1 - stL.1)).Sublist (clip_xs p) :=
      (((clip_xs p).drop stL.1).take_sublist (stR.1 - stL.1)).trans
        ((clip_xs p).drop_sublist stL.1)
    exact pairwise_pvle_to_pyle (fun v hv => hnumxs v (hsub.mem hv))
      (hsorted.sublist hsub)
  · intro v hv
    rw [hp2x] at hv
    rcases (mem_slice_iff (clip_xs p) stL.1 stR.1 v).mp hv with ⟨i, hl, hr, hi, hvi⟩
    rcases hnumxs v (by rw [← hvi]; exact List.getElem_mem hi) with ⟨qv, hqv⟩
    have hge : geB mbv v = true := by
      rw [← hvi]
      exact Hlb i hi hl
    have hgt : gtB MBv v = false := by
      rw [← hvi]
      exact Hub i hi hr
    constructor
    · rw [hp2min, hmb2, hqv, pyGe_num_geB, ← hqv, hge]
    · rw [hp2max, hMB2, hqv, pyLe_num_gtB, ← hqv, hgt]
      rfl
  · intro v hv hge hle
    rcases hx v hv with ⟨qv, hqv⟩
    rw [hp2min, hmb2, hqv, pyGe_num_geB, ← hqv] at hge
    injection hge with hge
    rw [hp2max, hMB2, hqv, pyLe_num_gtB, ← hqv] at hle
    injection hle with hle
    rw [Bool.not_eq_eq_eq_not, Bool.not_true] at hle
    rcases List.mem_iff_getElem.mp (hperm.mem_iff.mpr hv) with ⟨i, hi, hvi⟩
    have hil : stL.1 ≤ i := Hlb2 i hi (by rw [hvi]; exact hge)
    have hir : i < stR.1 := Hub2 i hi (by rw [hvi]; exact hle)
    rw [hp2x]
    exact (mem_slice_iff (clip_xs p) stL.1 stR.1 v).mpr ⟨i, hil, hir, hi, hvi⟩

/-- Closed instance of the amended C1 theorem: the series x = [3, 1, 2]
with bounds min-x = 2, max-x = 3 is clipped to the sorted in-range [2, 3]. -/
theorem c1_theorem_witness :
    List.Pairwise (fun a b => pyLe a b = Except.ok true)
      [PyVal.num 2, PyVal.num 3] ∧
    (∀ v ∈ [PyVal.num 2, PyVal.num 3],
      pyGe v (PyVal.num 2) = Except.ok true ∧
      pyLe v (PyVal.num 3) = Except.ok true) ∧
    (∀ v ∈ [PyVal.num 3, PyVal.num 1, PyVal.num 2],
      pyGe v (PyVal.num 2) = Except.ok true →
      pyLe v (PyVal.num 3) = Except.ok true →
      v ∈ [PyVal.num 2, PyVal.num 3]) := by
  have h := c1_theorem
    (Plot.mk GType.line false false [PyVal.num 3, PyVal.num 1, PyVal.num 2]
      [PyVal.num 4, PyVal.num 5, PyVal.num 6] (PyVal.num 2) (PyVal.num 3)
      (PyVal.str ("")) (PyVal.str ("")))
    (Plot.mk GType.line false false [PyVal.num 2, PyVal.num 3]
      [PyVal.num 6, PyVal.num 4] (PyVal.num 2) (PyVal.num 3)
      (PyVal.num 4) (PyVal.num 6))
    (by decide) (by decide)
    (by
      intro v hv
      fin_cases hv
      · exact ⟨3, rfl⟩
      · exact ⟨1, rfl⟩
      · exact ⟨2, rfl⟩)
    (by
      intro _
      exact ⟨2, rfl, PyVal.num 3, by decide, by decide⟩)
    (by
      intro _
      exact ⟨3, rfl⟩)
    (by decide)
  exact h

end Genplot
